import Mathlib

/-!
Verification of the B+ tree implementation in `src/BPlusTree.py`.

The Python classes `Node` / `LeafNode` and the `BPlusTree` facade are given a
functional shallow embedding.  Keys are `Int` (the repository only uses
integer keys; any strict total order would do), values are a type parameter
`β`.  A `LeafNode`'s parallel lists `self.keys` / `self.values` are modelled
as one list of key/bucket entries, because every line of the source that
touches one of the two lists touches the other at the same index.  The
`prevLeaf` / `nextLeaf` object references of leaves are modelled by giving
every leaf a numeric identity and keeping the two pointer fields in explicit
finite maps from identity to optional identity; the maps are updated exactly
where the source assigns the pointer fields.  Parent references need no
explicit model: the insertion cascade that reads `node.parent` is mirrored
by the return path of the structural recursion.

Where the Python code would raise (for example `_find` falling through and
returning `None` on an internal node with no keys, or an out-of-range list
index), the embedded operation returns `none`; `some` results correspond to
runs of the source that complete normally.
-/

set_option maxHeartbeats 1000000

namespace BPT

/-- One slot of a `LeafNode`: a key from `self.keys` together with the bucket
`self.values[i]` of values stored under it. -/
abbrev Entry (β : Type) := Int × List β

/-- Functional form of the node objects of `src/BPlusTree.py`.  `leaf` is a
`LeafNode` (with its pointer identity `id`), `node` is an internal `Node`
whose `values` list holds child nodes. -/
inductive BNode (β : Type) where
  | leaf (id : Nat) (entries : List (Entry β))
  | node (keys : List Int) (children : List (BNode β))

/-- The `prevLeaf`/`nextLeaf` fields of all leaves, as maps from leaf identity
to optional leaf identity (`none` is Python `None`), plus the source of fresh
identities for leaves created by splits. -/
structure Chain where
  nextMap : List (Nat × Option Nat)
  prevMap : List (Nat × Option Nat)
  counter : Nat

/-- The `BPlusTree` object: the root node, the configured `order`, and the
leaf-pointer state. -/
structure Tree (β : Type) where
  root : BNode β
  order : Nat
  chain : Chain

/-- Map lookup for the pointer maps; a leaf identity that was never assigned
has both pointers `None`, as in `LeafNode.__init__`. -/
def mlook (m : List (Nat × Option Nat)) (i : Nat) : Option Nat :=
  match m.find? (fun p => p.1 == i) with
  | some p => p.2
  | none => none

/-- Pointer assignment `leaf.nextLeaf = x` / `leaf.prevLeaf = x`. -/
def mset (m : List (Nat × Option Nat)) (i : Nat) (v : Option Nat) :
    List (Nat × Option Nat) :=
  (i, v) :: m

/-- The index computed by the static method `BPlusTree._find(node, key)`:
scan `node.keys`; at the first key with `key < item` return that position,
at the last key return one past it.  When `node.keys` is empty the Python
loop body never runs and the function falls through returning `None`
(subsequent tuple unpacking then raises); this is the `none` case. -/
def findIndex : List Int → Int → Option Nat
  | [], _ => none
  | item :: rest, key =>
    if key < item then some 0
    else if rest.isEmpty then some 1
    else (findIndex rest key).map (· + 1)

/-- `LeafNode.add(key, value)`: append to the bucket of an equal key, insert a
new singleton bucket before the first larger key, or append at the end. -/
def leafAdd : List (Entry β) → Int → β → List (Entry β)
  | [], key, value => [(key, [value])]
  | (ik, b) :: rest, key, value =>
    if key = ik then (ik, b ++ [value]) :: rest
    else if key < ik then (key, [value]) :: (ik, b) :: rest
    else if rest.isEmpty then (ik, b) :: rest ++ [(key, [value])]
    else (ik, b) :: leafAdd rest key value

/-- The leaf scan of `BPlusTree.retrieve`: return the bucket of an exactly
matching key, `None` otherwise. -/
def leafLookup : List (Entry β) → Int → Option (List β)
  | [], _ => none
  | (ik, b) :: rest, key => if key = ik then some b else leafLookup rest key

/-- `len(node.keys)`, the quantity tested by the overflow loop of
`BPlusTree.insert`. -/
def nkeys : BNode β → Nat
  | .leaf _ es => es.length
  | .node ks _ => ks.length

/-- `LeafNode.split`.  `mid = order // 2`; the new right leaf (fresh identity
`ch.counter`) takes `keys[mid:]`, the original leaf keeps `keys[:mid]` and
stays in place under its parent; a new `top` node with one key (the right
leaf's first key) and the two leaves as children is returned.  Pointer
updates exactly as in the source: `right.prevLeaf = self`,
`right.nextLeaf = self.nextLeaf`, `self.nextLeaf = right` — the source does
not update `self.nextLeaf`'s old target's `prevLeaf`.  `none` when
`right.keys[0]` would raise `IndexError` (never reached from `insert`). -/
def leafSplit (order : Nat) (sid : Nat) (es : List (Entry β)) (ch : Chain) :
    Option (BNode β × BNode β × Chain) :=
  let mid := order / 2
  match es.drop mid with
  | [] => none
  | (rk, _) :: _ =>
    let rid := ch.counter
    let left : BNode β := .leaf sid (es.take mid)
    let right : BNode β := .leaf rid (es.drop mid)
    let top : BNode β := .node [rk] [left, right]
    let prev' := mset ch.prevMap rid (some sid)
    let next' := mset (mset ch.nextMap rid (mlook ch.nextMap sid)) sid (some rid)
    some (top, left, { nextMap := next', prevMap := prev', counter := ch.counter + 1 })

/-- `Node.split` (internal).  `mid = order // 2`; the left part takes
`keys[:mid]` and `values[:mid+1]`, the right part `keys[mid+1:]` and
`values[mid+1:]`, and the node itself mutates into
`keys = [keys[mid]]`, `values = [left, right]` — so the returned top node is
also what sits at the node's old slot in its parent.  `none` when
`self.keys[mid]` would raise. -/
def nodeSplit (order : Nat) (ks : List Int) (cs : List (BNode β)) :
    Option (BNode β) :=
  let mid := order / 2
  match (ks.drop mid).head? with
  | none => none
  | some pivot =>
    some (.node [pivot]
      [.node (ks.take mid) (cs.take (mid + 1)),
       .node (ks.drop (mid + 1)) (cs.drop (mid + 1))])

/-- The `node.split()` call in `BPlusTree.insert`: dispatches to the leaf or
internal split; returns the new top node, the object left in place at the
node's old slot in its parent (the truncated leaf, resp. the mutated node
itself), and the updated pointer state. -/
def splitStep (order : Nat) (t : BNode β) (ch : Chain) :
    Option (BNode β × BNode β × Chain) :=
  match t with
  | .leaf sid es => leafSplit order sid es ch
  | .node ks cs => (nodeSplit order ks cs).map (fun top => (top, top, ch))

/-- The splice loop of `BPlusTree._mergeUp`: scan the parent's keys; before
the first key larger than the pivot, splice in the pivot and the split
child's two children at the same offset; at the last key, append both.  When
the parent has no keys the loop body never runs and nothing is spliced. -/
def mergeUpScan : List Int → List (BNode β) → Int → List (BNode β) →
    List Int × List (BNode β)
  | [], vs, _, _ => ([], vs)
  | k :: ks, vs, pivot, ccs =>
    if pivot < k then (pivot :: k :: ks, ccs ++ vs)
    else if ks.isEmpty then (k :: ks ++ [pivot], vs ++ ccs)
    else
      match vs with
      | [] =>
        let r := mergeUpScan ks [] pivot ccs
        (k :: r.1, r.2)
      | v :: vs' =>
        let r := mergeUpScan ks vs' pivot ccs
        (k :: r.1, v :: r.2)

/-- `BPlusTree._mergeUp(parent, child, index)`: pop the parent's child slot at
`index`, then splice the split child's first key and its two children into
the parent.  The child is always an internal node freshly produced by a
split; a leaf child (whose `values` are buckets, not nodes) cannot be
represented in the typed child list, and a child with no keys would raise on
`child.keys[0]` — both give `none`. -/
def mergeUp (pks : List Int) (pcs : List (BNode β)) (index : Nat)
    (child : BNode β) : Option (List Int × List (BNode β)) :=
  match child with
  | .leaf _ _ => none
  | .node cks ccs =>
    match cks with
    | [] => none
    | pivot :: _ => some (mergeUpScan pks (pcs.eraseIdx index) pivot ccs)

mutual

/-- `BPlusTree.insert`, descent and overflow cascade, for the subtree `t`.
Descend with `_find` to the leaf and run `LeafNode.add`; on the way back up,
a child whose key count has reached `order` is split, the split result is
merged into the current node with `_find` + `_mergeUp`, and the current
node is in turn checked by its own caller — exactly the source's
`while len(node.keys) == node.order` loop walking `node.parent` upward. -/
def insertAux (order : Nat) (key : Int) (value : β) (t : BNode β) (ch : Chain) :
    Option (BNode β × Chain) :=
  match t with
  | .leaf sid es => some (.leaf sid (leafAdd es key value), ch)
  | .node ks cs =>
    match findIndex ks key with
    | none => none
    | some i =>
      match insertChild order key value cs i ch with
      | none => none
      | some (c', ch') =>
        if nkeys c' = order then
          match splitStep order c' ch' with
          | none => none
          | some (top, residue, ch'') =>
            match top with
            | .leaf _ _ => none
            | .node [] _ => none
            | .node (pivot :: _) _ =>
              match findIndex ks pivot with
              | none => none
              | some index =>
                match mergeUp ks (cs.set i residue) index top with
                | none => none
                | some (ks', cs') => some (.node ks' cs', ch'')
        else some (.node ks (cs.set i c'), ch')

/-- Access `node.values[i]` during the descent of `insert` and recurse into
it; `none` is the `IndexError` of an out-of-range index. -/
def insertChild (order : Nat) (key : Int) (value : β) :
    List (BNode β) → Nat → Chain → Option (BNode β × Chain)
  | [], _, _ => none
  | c :: _, 0, ch => insertAux order key value c ch
  | _ :: cs, i + 1, ch => insertChild order key value cs i ch

end

/-- `BPlusTree.insert` at tree level: run the descent/cascade on the root and
handle a root overflow by installing the split's top node as the new root.
A freshly installed top node has exactly one key, so the source's
`while` loop can fire again at the root only when `order = 1`, in which case
the source loops forever; that divergence is the final `none`. -/
def insertT (t : Tree β) (key : Int) (value : β) : Option (Tree β) :=
  match insertAux t.order key value t.root t.chain with
  | none => none
  | some (r, ch) =>
    if nkeys r = t.order then
      match splitStep t.order r ch with
      | none => none
      | some (top, _, ch') =>
        if nkeys top = t.order then none
        else some { t with root := top, chain := ch' }
    else some { t with root := r, chain := ch }

/-- A sequence of `insert` calls, first element first. -/
def runInserts (t : Tree β) : List (Int × β) → Option (Tree β)
  | [] => some t
  | (k, v) :: rest =>
    match insertT t k v with
    | none => none
    | some t' => runInserts t' rest

mutual

/-- `BPlusTree.retrieve`: descend with `_find` to the leaf and scan it.
`some none` is the source's `return None` (key absent); the outer `none` is
a raising run. -/
def retrieveAux (key : Int) : BNode β → Option (Option (List β))
  | .leaf _ es => some (leafLookup es key)
  | .node ks cs =>
    match findIndex ks key with
    | none => none
    | some i => retrieveChild key cs i

/-- Child access of the `retrieve` descent. -/
def retrieveChild (key : Int) : List (BNode β) → Nat → Option (Option (List β))
  | [], _ => none
  | c :: _, 0 => retrieveAux key c
  | _ :: cs, i + 1 => retrieveChild key cs i

end

/-- `BPlusTree.retrieve` on the tree. -/
def retrieveT (t : Tree β) (key : Int) : Option (Option (List β)) :=
  retrieveAux key t.root

/-- `BPlusTree.__init__(order)`: the root is a fresh empty `LeafNode` (identity
0, both leaf pointers `None`); no validation of `order` is performed. -/
def newTree (β : Type) (order : Nat) : Tree β :=
  { root := .leaf 0 []
    order := order
    chain := { nextMap := [], prevMap := [], counter := 1 } }

/-- Descent `node = node.values[0]` of `BPlusTree.getLeftmostLeaf`; `none` is
the `IndexError` on an internal node with no children. -/
def descendFirst : BNode β → Option (BNode β)
  | .leaf i es => some (.leaf i es)
  | .node _ cs =>
    match cs with
    | [] => none
    | c :: _ => descendFirst c

/-- `BPlusTree.getLeftmostLeaf`. -/
def getLeftmostLeaf (t : Tree β) : Option (BNode β) :=
  descendFirst t.root

mutual

/-- Descent `node = node.values[-1]` to the rightmost leaf. -/
def descendLast : BNode β → Option (BNode β)
  | .leaf i es => some (.leaf i es)
  | .node _ cs => descendLastL cs

/-- Last-child access of the rightmost descent. -/
def descendLastL : List (BNode β) → Option (BNode β)
  | [] => none
  | [c] => descendLast c
  | _ :: c :: cs => descendLastL (c :: cs)

end

/-- `BPlusTree.getRightmostLeaf` as written in the source: it walks
`node = node.values[-1]` down to the rightmost leaf but the method body ends
without a `return` statement, so every call returns `None` (compare
`getLeftmostLeaf`, which does `return node`). -/
def getRightmostLeaf (t : Tree β) : Option (BNode β) :=
  let _walked := descendLast t.root
  none

mutual

/-- The leaves of a subtree in left-to-right order, each as (identity,
entries). -/
def leafRecs : BNode β → List (Nat × List (Entry β))
  | .leaf i es => [(i, es)]
  | .node _ cs => leafRecsL cs

/-- List version of `leafRecs`. -/
def leafRecsL : List (BNode β) → List (Nat × List (Entry β))
  | [] => []
  | c :: cs => leafRecs c ++ leafRecsL cs

end

/-- Leaf identities in left-to-right order. -/
def leafIds (t : BNode β) : List Nat :=
  (leafRecs t).map Prod.fst

/-- All key/bucket entries of the tree in leaf order. -/
def toEntries (t : BNode β) : List (Entry β) :=
  ((leafRecs t).map Prod.snd).flatten

/-- All keys of the tree in leaf order. -/
def leafKeys (t : BNode β) : List Int :=
  (toEntries t).map Prod.fst

/-- Key counts of the leaves, left to right.  Used to state the occupancy
bounds for non-root leaves. -/
def leafSizes (t : BNode β) : List Nat :=
  ((leafRecs t).map Prod.snd).map List.length

/-- Follow `nextLeaf` pointers from the leaf with identity `cur`, collecting
each visited leaf's keys (the leaf object behind a pointer is found by its
identity).  `none` when a pointer leads to no leaf of the tree or the fuel
runs out (a pointer cycle). -/
def walkChainKeys (root : BNode β) (nx : List (Nat × Option Nat)) :
    Nat → Nat → Option (List Int)
  | 0, _ => none
  | fuel + 1, cur =>
    match (leafRecs root).lookup cur with
    | none => none
    | some es =>
      match mlook nx cur with
      | none => some (es.map Prod.fst)
      | some nxt => (walkChainKeys root nx fuel nxt).map (es.map Prod.fst ++ ·)

/-- Traversal of the leaf chain front to back: start at the leftmost leaf and
follow `nextLeaf` to the end, concatenating the keys of each leaf. -/
def chainKeysT (t : Tree β) : Option (List Int) :=
  match descendFirst t.root with
  | some (.leaf sid _) => walkChainKeys t.root t.chain.nextMap (t.chain.counter + 1) sid
  | _ => none

/-- Strictly ascending list of keys. -/
def strictSortedB : List Int → Bool
  | [] => true
  | [_] => true
  | a :: b :: l => decide (a < b) && strictSortedB (b :: l)

/-- Lower bound for leaf keys: `lo ≤ k` (`none` = unconstrained). -/
def geOB (lo : Option Int) (k : Int) : Bool :=
  match lo with
  | none => true
  | some l => decide (l ≤ k)

/-- Lower bound for separator keys: `lo < k`. -/
def gtOB (lo : Option Int) (k : Int) : Bool :=
  match lo with
  | none => true
  | some l => decide (l < k)

/-- Upper bound: `k < hi`. -/
def ltOB (k : Int) (hi : Option Int) : Bool :=
  match hi with
  | none => true
  | some h => decide (k < h)

mutual

/-- Search-order well-formedness of a subtree within the half-open window
`[lo, hi)`: leaf keys are strictly ascending and lie in the window; an
internal node has one more child than keys, every separator lies strictly
inside the window, keys of the child left of a separator are below it and
keys (and separators) right of it are at least (strictly above) it. -/
def ordB : BNode β → Option Int → Option Int → Bool
  | .leaf _ es, lo, hi =>
    strictSortedB (es.map Prod.fst) &&
    es.all (fun e => geOB lo e.1 && ltOB e.1 hi)
  | .node ks cs, lo, hi => internalOrdB ks cs lo hi

/-- The internal-node part of `ordB`, peeling separators and children
together. -/
def internalOrdB : List Int → List (BNode β) → Option Int → Option Int → Bool
  | [], [c], lo, hi => ordB c lo hi
  | [], _, _, _ => false
  | _ :: _, [], _, _ => false
  | k :: ks, c :: cs, lo, hi =>
    gtOB lo k && ltOB k hi && ordB c lo (some k) && internalOrdB ks cs (some k) hi

end

mutual

/-- Occupancy bounds for a non-root subtree of a tree of order `M`: a leaf
holds between `M / 2` and `M - 1` keys, an internal node between 1 and
`M - 1` keys. -/
def occB (M : Nat) : BNode β → Bool
  | .leaf _ es => decide (M / 2 ≤ es.length) && decide (es.length ≤ M - 1)
  | .node ks cs =>
    decide (1 ≤ ks.length) && decide (ks.length ≤ M - 1) && occListB M cs

/-- List version of `occB`. -/
def occListB (M : Nat) : List (BNode β) → Bool
  | [] => true
  | c :: cs => occB M c && occListB M cs

end

/-- Occupancy at the root: a root leaf may be arbitrarily small, a root
internal node holds between 1 and `M - 1` keys; everything below is
non-root. -/
def occRootB (M : Nat) : BNode β → Bool
  | .leaf _ es => decide (es.length ≤ M - 1)
  | .node ks cs =>
    decide (1 ≤ ks.length) && decide (ks.length ≤ M - 1) && occListB M cs

/-- The `nextLeaf` pointers thread the given leaf identities in order and end
with `None`. -/
def linksOkB (nx : List (Nat × Option Nat)) : List Nat → Bool
  | [] => true
  | [a] => mlook nx a == none
  | a :: b :: l => mlook nx a == some b && linksOkB nx (b :: l)

/-- Invariant of reachable trees: search order at the root window, occupancy,
`nextLeaf` pointers following the leaf order, distinct leaf identities, all
identities below the freshness counter. -/
def WFTree (t : Tree β) : Prop :=
  ordB t.root none none = true ∧
  occRootB t.order t.root = true ∧
  linksOkB t.chain.nextMap (leafIds t.root) = true ∧
  (leafIds t.root).Nodup ∧
  ∀ id ∈ leafIds t.root, id < t.chain.counter

/-- The key-and-structure skeleton of a node: everything except the buckets
(key lists of all nodes, child structure, leaf identities).  Used to state
that an operation changes no key list, no link and no structure. -/
inductive Skel where
  | leaf (id : Nat) (keys : List Int)
  | node (keys : List Int) (children : List Skel)

mutual

/-- Skeleton of a subtree. -/
def skel : BNode β → Skel
  | .leaf i es => .leaf i (es.map Prod.fst)
  | .node ks cs => .node ks (skelL cs)

/-- List version of `skel`. -/
def skelL : List (BNode β) → List Skel
  | [] => []
  | c :: cs => skel c :: skelL cs

end

/-- Python list assignment `l[i] = v` with negative-index wrap-around;
`none` is the `IndexError` of an out-of-range index. -/
def pySet (l : List Int) (i : Int) (v : Int) : Option (List Int) :=
  let j := if i < 0 then i + l.length else i
  if 0 ≤ j ∧ j < l.length then some (l.set j.toNat v) else none

/-- `BPlusTree._borrowLeft(node, sibling, parentIndex)`, acting on the node,
its left sibling, and the keys of `node.parent`.  For leaves: move the
sibling's last entry to the node's front and overwrite
`parent.keys[parentIndex - 1]` with the moved key.  For internal nodes: pop
the parent's LAST key into the node's front, pop the sibling's last key into
the parent's front, and move the sibling's last child (reparented) to the
node's front.  A leaf/internal mixture would splice buckets into child lists
(or vice versa) and is untypable here; the source would raise on it. -/
def borrowLeft :
    BNode β → BNode β → List Int → Nat → Option (BNode β × BNode β × List Int)
  | .leaf nid nes, .leaf sid ses, pks, parentIndex =>
    match ses.getLast? with
    | none => none
    | some e =>
      (pySet pks ((parentIndex : Int) - 1) e.1).map
        (fun pks' => (.leaf nid (e :: nes), .leaf sid ses.dropLast, pks'))
  | .node nks ncs, .node sks scs, pks, _ =>
    match pks.getLast?, sks.getLast?, scs.getLast? with
    | some pk, some sk, some d =>
      some (.node (pk :: nks) (d :: ncs), .node sks.dropLast scs.dropLast,
        sk :: pks.dropLast)
    | _, _, _ => none
  | _, _, _, _ => none

/-- `BPlusTree._borrowRight(node, sibling, parentIndex)`.  For leaves: move
the sibling's first entry to the node's end and overwrite
`parent.keys[parentIndex]` with the sibling's new first key (raising when
the sibling had only one entry).  For internal nodes: pop the parent's FIRST
key to the node's end, pop the sibling's first key to the parent's end, and
move the sibling's first child (reparented) to the node's end. -/
def borrowRight :
    BNode β → BNode β → List Int → Nat → Option (BNode β × BNode β × List Int)
  | .leaf nid nes, .leaf sid ses, pks, parentIndex =>
    match ses with
    | [] => none
    | e :: ses' =>
      match ses'.head? with
      | none => none
      | some e2 =>
        (pySet pks (parentIndex : Int) e2.1).map
          (fun pks' => (.leaf nid (nes ++ [e]), .leaf sid ses', pks'))
  | .node nks ncs, .node sks scs, pks, _ =>
    match pks, sks, scs with
    | pk :: pks', sk :: sks', d :: scs' =>
      some (.node (nks ++ [pk]) (ncs ++ [d]), .node sks' scs', pks' ++ [sk])
    | _, _, _ => none
  | _, _, _, _ => none

/-- First key of a node (`node.keys[0]`); `none` would be an `IndexError`. -/
def firstKey : BNode β → Option Int
  | .leaf _ es => (es.map Prod.fst).head?
  | .node ks _ => ks.head?

/-- `BPlusTree._mergeOnDelete(l_node, r_node)`, acting on the two nodes and
their parent's keys/children.  Locate the separator with
`_find(parent, l_node.keys[0])`, pop that key and the child slot there, and
put the merged node at the slot's position.  For two leaves the separator is
dropped and `l.nextLeaf = r.nextLeaf` (the source does not update that
leaf's `prevLeaf`); for two internal nodes the separator is appended to the
left node's keys, then keys and children are concatenated. -/
def mergeOnDelete (pks : List Int) (pcs : List (BNode β)) (l r : BNode β)
    (ch : Chain) : Option (List Int × List (BNode β) × Chain) :=
  match firstKey l with
  | none => none
  | some fk =>
    match findIndex pks fk with
    | none => none
    | some index =>
      match pks.get? index, pcs.get? index with
      | some pk, some _ =>
        let pks' := pks.eraseIdx index
        let pcs' := pcs.eraseIdx index
        if index < pcs'.length then
          match l, r with
          | .leaf lid les, .leaf rid res =>
            let merged : BNode β := .leaf lid (les ++ res)
            let ch' := { ch with nextMap := mset ch.nextMap lid (mlook ch.nextMap rid) }
            some (pks', pcs'.set index merged, ch')
          | .node lks lcs, .node rks rcs =>
            let merged : BNode β := .node (lks ++ pk :: rks) (lcs ++ rcs)
            some (pks', pcs'.set index merged, ch)
          | _, _ => none
        else none
      | _, _ => none

/-- Modelled from the spec: the underflow test of §4.9's loop.  The source's
`Node.isUnderflow` (`len(self.keys) <= floor(self.order / 2) - 1`) raises a
`NameError` on every call because `floor` is never imported; this is the
arithmetic test it names. -/
def underflowP (M : Nat) (n : Nat) : Bool :=
  decide ((n : Int) ≤ (M : Int) / 2 - 1)

/-- Modelled from the spec: the lender-surplus test of §4.7 ("sibling has
strictly more than the minimum key count", i.e. the negation of the
source's `Node.isNearlyUnderflow`, which likewise names `floor`). -/
def hasSurplus (M : Nat) (n : Nat) : Bool :=
  decide ((M : Int) / 2 < (n : Int))

/-- list of keys of a node (used for the emptiness guard of the source's
sibling lookup). -/
def nodeKeys : BNode β → List Int
  | .leaf _ es => es.map Prod.fst
  | .node ks _ => ks

/-- Modelled from the spec: one §4.9 rebalancing step for the child at
position `i` of an internal node (keys `ks`, children `cs`, the child has
already been updated in `cs`).  If the child underflows: look its position
up as `getPrevSibling`/`getNextSibling` do (`_find` on the parent with the
child's first key, `None` for a node with no keys); prefer borrowing from a
left sibling with surplus, then from a right sibling with surplus, then
merging with the left sibling, then with the right.  The child and its
sibling are written back at the looked-up positions.  A child with no keys
has no reachable sibling and is left as it is. -/
def rebalanceChild (M : Nat) (ks : List Int) (cs : List (BNode β)) (i : Nat)
    (ch : Chain) : Option (List Int × List (BNode β) × Chain) :=
  match cs.get? i with
  | none => none
  | some c =>
    if underflowP M (nkeys c) then
      match (nodeKeys c).head? with
      | none => some (ks, cs, ch)
      | some fk =>
        match findIndex ks fk with
        | none => none
        | some index =>
          let prevSib := if 1 ≤ index then cs.get? (index - 1) else none
          let nextSib := cs.get? (index + 1)
          match prevSib with
          | some ps =>
            if hasSurplus M (nkeys ps) then
              match borrowLeft c ps ks index with
              | none => none
              | some (c', ps', ks') =>
                some (ks', (cs.set i c').set (index - 1) ps', ch)
            else
              match nextSib with
              | some ns =>
                if hasSurplus M (nkeys ns) then
                  match borrowRight c ns ks index with
                  | none => none
                  | some (c', ns', ks') =>
                    some (ks', (cs.set i c').set (index + 1) ns', ch)
                else
                  match mergeOnDelete ks cs ps c ch with
                  | none => none
                  | some (ks', cs', ch') => some (ks', cs', ch')
              | none =>
                match mergeOnDelete ks cs ps c ch with
                | none => none
                | some (ks', cs', ch') => some (ks', cs', ch')
          | none =>
            match nextSib with
            | some ns =>
              if hasSurplus M (nkeys ns) then
                match borrowRight c ns ks index with
                | none => none
                | some (c', ns', ks') =>
                  some (ks', (cs.set i c').set (index + 1) ns', ch)
              else
                match mergeOnDelete ks cs c ns ch with
                | none => none
                | some (ks', cs', ch') => some (ks', cs', ch')
            | none => some (ks, cs, ch)
    else some (ks, cs, ch)

/-- Removal of a key's entire entry (bucket and all) from a leaf; modelled
from the spec (§4.9: "remove the key's entire entry"). -/
def removeEntry : List (Entry β) → Int → List (Entry β)
  | [], _ => []
  | (ik, b) :: rest, key => if key = ik then rest else (ik, b) :: removeEntry rest key

mutual

/-- Modelled from the spec: the source has no `delete` entry point (spec §9);
this is §4.9's orchestration wired to the source's rebalancing primitives.
Descend with `_find` to the leaf, remove the key's entry, and on the way up
apply one `rebalanceChild` step per level — the "while the current node
underflows" loop walking parents upward. -/
def deleteAux (M : Nat) (key : Int) (t : BNode β) (ch : Chain) :
    Option (BNode β × Chain) :=
  match t with
  | .leaf lid es => some (.leaf lid (removeEntry es key), ch)
  | .node ks cs =>
    match findIndex ks key with
    | none => none
    | some i =>
      match deleteChild M key cs i ch with
      | none => none
      | some (c', ch') =>
        match rebalanceChild M ks (cs.set i c') i ch' with
        | none => none
        | some (ks', cs', ch'') => some (.node ks' cs', ch'')

/-- Child access of the delete descent. -/
def deleteChild (M : Nat) (key : Int) :
    List (BNode β) → Nat → Chain → Option (BNode β × Chain)
  | [], _, _ => none
  | c :: _, 0, ch => deleteAux M key c ch
  | _ :: cs, i + 1, ch => deleteChild M key cs i ch

end

/-- Outcome of `delete(key)`: the NotFound failure of §6, or the tree after a
successful removal. -/
inductive DeleteOutcome (β : Type) where
  | keyNotFound
  | deleted (t : Tree β)

/-- Modelled from the spec: `delete(key)` at tree level (§4.9, §6).  Fails
with `KeyNotFound` — leaving the tree untouched — when the key is absent;
otherwise removes the key's entry and rebalances, and if the root is left
with exactly one child, promotes that child to be the new root. -/
def deleteT (t : Tree β) (key : Int) : Option (DeleteOutcome β) :=
  match retrieveT t key with
  | none => none
  | some none => some .keyNotFound
  | some (some _) =>
    match deleteAux t.order key t.root t.chain with
    | none => none
    | some (r, ch) =>
      match r with
      | .node _ [c] => some (.deleted { t with root := c, chain := ch })
      | _ => some (.deleted { t with root := r, chain := ch })

/-- The names a module-level lookup can resolve while executing
`src/BPlusTree.py`: the module's imports (`annotations` from line 1,
`Digraph` from line 367), its top-level definitions, and the Python builtins
the file uses.  `floor` is not among them — no import provides it. -/
def moduleNames : List String :=
  ["annotations", "Digraph", "Node", "LeafNode", "BPlusTree",
   "read_numbers_from_file", "visualize_bplus_tree_graphviz",
   "len", "isinstance", "enumerate", "int", "super", "id", "str", "map",
   "list", "open", "print", "object", "staticmethod"]

/-- Result of evaluating a Python expression: a value, or an uncaught
`NameError` for an unresolvable name. -/
inductive PyEval (α : Type) where
  | ok (a : α)
  | nameError (name : String)

/-- `Node.isUnderflow`: `len(self.keys) <= floor(self.order / 2) - 1`.  The
comparison needs the name `floor`; if it resolved, the result would be the
stated arithmetic test. -/
def isUnderflow (order : Nat) (keyCount : Nat) : PyEval Bool :=
  if "floor" ∈ moduleNames then
    .ok (decide ((keyCount : Int) ≤ (order : Int) / 2 - 1))
  else .nameError "floor"

/-- `Node.isNearlyUnderflow`: `len(self.keys) <= floor(self.order / 2)`. -/
def isNearlyUnderflow (order : Nat) (keyCount : Nat) : PyEval Bool :=
  if "floor" ∈ moduleNames then
    .ok (decide ((keyCount : Int) ≤ (order : Int) / 2))
  else .nameError "floor"

/-- Entries of a list of subtrees, in order. -/
def toEntriesL (cs : List (BNode β)) : List (Entry β) :=
  ((leafRecsL cs).map Prod.snd).flatten

/-- Leaf identities of a list of subtrees, in order. -/
def leafIdsL (cs : List (BNode β)) : List Nat :=
  (leafRecsL cs).map Prod.fst

/-- Specification-side view of an insert history: the values inserted under
`k`, in insertion order. -/
def bucketOf (ops : List (Int × β)) (k : Int) : List β :=
  (ops.filter (fun p => p.1 == k)).map Prod.snd

/-- The pointer-state update a leaf split performs when splitting the leaf
with identity `sid`: the new right leaf gets the next fresh identity, its
`prevLeaf` is the split leaf, its `nextLeaf` is the split leaf's old
successor, and the split leaf's `nextLeaf` becomes the new leaf.  (The old
successor's `prevLeaf` is NOT touched.) -/
def splitChain (ch : Chain) (sid : Nat) : Chain :=
  { nextMap := mset (mset ch.nextMap ch.counter (mlook ch.nextMap sid)) sid (some ch.counter)
    prevMap := mset ch.prevMap ch.counter (some sid)
    counter := ch.counter + 1 }

/-- Occupancy of everything strictly below a node (the node's own key count
is constrained separately while it may transiently hold `order` keys). -/
def occXB (M : Nat) : BNode β → Bool
  | .leaf _ _ => true
  | .node _ cs => occListB M cs

/-- Lower bound of the key window of the `i`-th child of an internal node
with keys `ks` whose own window is `[lo, hi)`. -/
def lob (ks : List Int) (lo : Option Int) : Nat → Option Int
  | 0 => lo
  | i + 1 => ks.get? i

/-- Upper bound of the key window of the `i`-th child. -/
def hib (ks : List Int) (hi : Option Int) (i : Nat) : Option Int :=
  match ks.get? i with
  | some k => some k
  | none => hi

/-- Concrete internal node used to exhibit the behaviour of `_borrowLeft` on
an internal node whose parent has two keys: the borrowing node, lying
between the parent separators 10 and 20. -/
def c7Node : BNode Int :=
  .node [12] [.leaf 93 [(10, [10])], .leaf 94 [(12, [12])]]

/-- Its left sibling (keys below 10). -/
def c7Sib : BNode Int :=
  .node [3, 5] [.leaf 90 [(1, [1])], .leaf 91 [(3, [3]), (4, [4])],
    .leaf 92 [(5, [5]), (7, [7])]]

/-- The third child of the parent (keys of 20 and above). -/
def c7Right : BNode Int :=
  .node [22] [.leaf 95 [(20, [20])], .leaf 96 [(22, [22])]]

/-!
Concrete intermediate trees of the scenarios used by the concrete claims,
obtained by evaluating the embedded operations step by step; each is
re-verified by `rfl` in the proofs below.  `c3S*`: order 3, inserting
10, 20, 5, 6, 12, 30, 7, 17.  `c4S*`: order 3, inserting 3, 4, 5, 1, 2.
`c6S*`: order 2, inserting 1, 2, 3 (the fourth insert crashes).  `c5S*`:
order 4, inserting 1..10; `c5Del` is that tree after `delete(10)`.
-/

def c3S1 : Tree Int := ⟨(BNode.leaf 0 [(10, [10])]), 3, ⟨[], [], 1⟩⟩

def c3S2 : Tree Int := ⟨(BNode.leaf 0 [(10, [10]), (20, [20])]), 3, ⟨[], [], 1⟩⟩

def c3S3 : Tree Int := ⟨(BNode.node [10] [(BNode.leaf 0 [(5, [5])]), (BNode.leaf 1 [(10, [10]), (20, [20])])]), 3, ⟨[(0, some 1), (1, none)], [(1, some 0)], 2⟩⟩

def c3S4 : Tree Int := ⟨(BNode.node [10] [(BNode.leaf 0 [(5, [5]), (6, [6])]), (BNode.leaf 1 [(10, [10]), (20, [20])])]), 3, ⟨[(0, some 1), (1, none)], [(1, some 0)], 2⟩⟩

def c3S5 : Tree Int := ⟨(BNode.node [10, 12] [(BNode.leaf 0 [(5, [5]), (6, [6])]), (BNode.leaf 1 [(10, [10])]), (BNode.leaf 2 [(12, [12]), (20, [20])])]), 3, ⟨[(1, some 2), (2, none), (0, some 1), (1, none)], [(2, some 1), (1, some 0)], 3⟩⟩

def c3S6 : Tree Int := ⟨(BNode.node [12] [(BNode.node [10] [(BNode.leaf 0 [(5, [5]), (6, [6])]), (BNode.leaf 1 [(10, [10])])]), (BNode.node [20] [(BNode.leaf 2 [(12, [12])]), (BNode.leaf 3 [(20, [20]), (30, [30])])])]), 3, ⟨[(2, some 3), (3, none), (1, some 2), (2, none), (0, some 1), (1, none)], [(3, some 2), (2, some 1), (1, some 0)], 4⟩⟩

def c3S7 : Tree Int := ⟨(BNode.node [12] [(BNode.node [6, 10] [(BNode.leaf 0 [(5, [5])]), (BNode.leaf 4 [(6, [6]), (7, [7])]), (BNode.leaf 1 [(10, [10])])]), (BNode.node [20] [(BNode.leaf 2 [(12, [12])]), (BNode.leaf 3 [(20, [20]), (30, [30])])])]), 3, ⟨[(0, some 4), (4, some 1), (2, some 3), (3, none), (1, some 2), (2, none), (0, some 1), (1, none)], [(4, some 0), (3, some 2), (2, some 1), (1, some 0)], 5⟩⟩

def c3S8 : Tree Int := ⟨(BNode.node [12] [(BNode.node [6, 10] [(BNode.leaf 0 [(5, [5])]), (BNode.leaf 4 [(6, [6]), (7, [7])]), (BNode.leaf 1 [(10, [10])])]), (BNode.node [20] [(BNode.leaf 2 [(12, [12]), (17, [17])]), (BNode.leaf 3 [(20, [20]), (30, [30])])])]), 3, ⟨[(0, some 4), (4, some 1), (2, some 3), (3, none), (1, some 2), (2, none), (0, some 1), (1, none)], [(4, some 0), (3, some 2), (2, some 1), (1, some 0)], 5⟩⟩

def c4S1 : Tree Int := ⟨(BNode.leaf 0 [(3, [3])]), 3, ⟨[], [], 1⟩⟩

def c4S2 : Tree Int := ⟨(BNode.leaf 0 [(3, [3]), (4, [4])]), 3, ⟨[], [], 1⟩⟩

def c4S3 : Tree Int := ⟨(BNode.node [4] [(BNode.leaf 0 [(3, [3])]), (BNode.leaf 1 [(4, [4]), (5, [5])])]), 3, ⟨[(0, some 1), (1, none)], [(1, some 0)], 2⟩⟩

def c4S4 : Tree Int := ⟨(BNode.node [4] [(BNode.leaf 0 [(1, [1]), (3, [3])]), (BNode.leaf 1 [(4, [4]), (5, [5])])]), 3, ⟨[(0, some 1), (1, none)], [(1, some 0)], 2⟩⟩

def c4S5 : Tree Int := ⟨(BNode.node [2, 4] [(BNode.leaf 0 [(1, [1])]), (BNode.leaf 2 [(2, [2]), (3, [3])]), (BNode.leaf 1 [(4, [4]), (5, [5])])]), 3, ⟨[(0, some 2), (2, some 1), (0, some 1), (1, none)], [(2, some 0), (1, some 0)], 3⟩⟩

def c6S1 : Tree Int := ⟨(BNode.leaf 0 [(1, [1])]), 2, ⟨[], [], 1⟩⟩

def c6S2 : Tree Int := ⟨(BNode.node [2] [(BNode.leaf 0 [(1, [1])]), (BNode.leaf 1 [(2, [2])])]), 2, ⟨[(0, some 1), (1, none)], [(1, some 0)], 2⟩⟩

def c6S3 : Tree Int := ⟨(BNode.node [3] [(BNode.node [2] [(BNode.leaf 0 [(1, [1])]), (BNode.leaf 1 [(2, [2])])]), (BNode.node [] [(BNode.leaf 2 [(3, [3])])])]), 2, ⟨[(1, some 2), (2, none), (0, some 1), (1, none)], [(2, some 1), (1, some 0)], 3⟩⟩

def c5S1 : Tree Int := ⟨(BNode.leaf 0 [(1, [1])]), 4, ⟨[], [], 1⟩⟩

def c5S2 : Tree Int := ⟨(BNode.leaf 0 [(1, [1]), (2, [2])]), 4, ⟨[], [], 1⟩⟩

def c5S3 : Tree Int := ⟨(BNode.leaf 0 [(1, [1]), (2, [2]), (3, [3])]), 4, ⟨[], [], 1⟩⟩

def c5S4 : Tree Int := ⟨(BNode.node [3] [(BNode.leaf 0 [(1, [1]), (2, [2])]), (BNode.leaf 1 [(3, [3]), (4, [4])])]), 4, ⟨[(0, some 1), (1, none)], [(1, some 0)], 2⟩⟩

def c5S5 : Tree Int := ⟨(BNode.node [3] [(BNode.leaf 0 [(1, [1]), (2, [2])]), (BNode.leaf 1 [(3, [3]), (4, [4]), (5, [5])])]), 4, ⟨[(0, some 1), (1, none)], [(1, some 0)], 2⟩⟩

def c5S6 : Tree Int := ⟨(BNode.node [3, 5] [(BNode.leaf 0 [(1, [1]), (2, [2])]), (BNode.leaf 1 [(3, [3]), (4, [4])]), (BNode.leaf 2 [(5, [5]), (6, [6])])]), 4, ⟨[(1, some 2), (2, none), (0, some 1), (1, none)], [(2, some 1), (1, some 0)], 3⟩⟩

def c5S7 : Tree Int := ⟨(BNode.node [3, 5] [(BNode.leaf 0 [(1, [1]), (2, [2])]), (BNode.leaf 1 [(3, [3]), (4, [4])]), (BNode.leaf 2 [(5, [5]), (6, [6]), (7, [7])])]), 4, ⟨[(1, some 2), (2, none), (0, some 1), (1, none)], [(2, some 1), (1, some 0)], 3⟩⟩

def c5S8 : Tree Int := ⟨(BNode.node [3, 5, 7] [(BNode.leaf 0 [(1, [1]), (2, [2])]), (BNode.leaf 1 [(3, [3]), (4, [4])]), (BNode.leaf 2 [(5, [5]), (6, [6])]), (BNode.leaf 3 [(7, [7]), (8, [8])])]), 4, ⟨[(2, some 3), (3, none), (1, some 2), (2, none), (0, some 1), (1, none)], [(3, some 2), (2, some 1), (1, some 0)], 4⟩⟩

def c5S9 : Tree Int := ⟨(BNode.node [3, 5, 7] [(BNode.leaf 0 [(1, [1]), (2, [2])]), (BNode.leaf 1 [(3, [3]), (4, [4])]), (BNode.leaf 2 [(5, [5]), (6, [6])]), (BNode.leaf 3 [(7, [7]), (8, [8]), (9, [9])])]), 4, ⟨[(2, some 3), (3, none), (1, some 2), (2, none), (0, some 1), (1, none)], [(3, some 2), (2, some 1), (1, some 0)], 4⟩⟩

def c5S10 : Tree Int := ⟨(BNode.node [7] [(BNode.node [3, 5] [(BNode.leaf 0 [(1, [1]), (2, [2])]), (BNode.leaf 1 [(3, [3]), (4, [4])]), (BNode.leaf 2 [(5, [5]), (6, [6])])]), (BNode.node [9] [(BNode.leaf 3 [(7, [7]), (8, [8])]), (BNode.leaf 4 [(9, [9]), (10, [10])])])]), 4, ⟨[(3, some 4), (4, none), (2, some 3), (3, none), (1, some 2), (2, none), (0, some 1), (1, none)], [(4, some 3), (3, some 2), (2, some 1), (1, some 0)], 5⟩⟩

def c5Del : Tree Int := ⟨(BNode.node [7] [(BNode.node [3, 5] [(BNode.leaf 0 [(1, [1]), (2, [2])]), (BNode.leaf 1 [(3, [3]), (4, [4])]), (BNode.leaf 2 [(5, [5]), (6, [6])])]), (BNode.node [] [(BNode.leaf 3 [(7, [7]), (8, [8]), (9, [9])])])]), 4, ⟨[(3, none), (3, some 4), (4, none), (2, some 3), (3, none), (1, some 2), (2, none), (0, some 1), (1, none)], [(4, some 3), (3, some 2), (2, some 1), (1, some 0)], 5⟩⟩

/-- Unfolding step for a run of inserts. -/
theorem runInserts_cons {β : Type} {t t' : Tree β} {k : Int} {v : β}
    (ops : List (Int × β)) (h : insertT t k v = some t') :
    runInserts t ((k, v) :: ops) = runInserts t' ops := by
  simp [runInserts, h]

theorem geOB_none (k : Int) : geOB none k = true := rfl

theorem ltOB_none (k : Int) : ltOB k none = true := rfl

theorem geOB_some {l k : Int} : geOB (some l) k = true ↔ l ≤ k := by simp [geOB]

theorem gtOB_some {l k : Int} : gtOB (some l) k = true ↔ l < k := by simp [gtOB]

theorem ltOB_some {k h : Int} : ltOB k (some h) = true ↔ k < h := by simp [ltOB]

theorem geOB_of_gtOB {lo : Option Int} {k : Int} (h : gtOB lo k = true) :
    geOB lo k = true := by
  cases lo with
  | none => rfl
  | some l => simp only [gtOB_some] at h; exact geOB_some.mpr (le_of_lt h)

theorem lob_cons {a : Int} {l : List Int} {lo : Option Int} {i : Nat} :
    lob (a :: l) lo (i + 1) = lob l (some a) i := by
  cases i <;> rfl

theorem hib_cons {a : Int} {l : List Int} {hi : Option Int} {i : Nat} :
    hib (a :: l) hi (i + 1) = hib l hi i := rfl

theorem lob_none_succ {ks : List Int} {i : Nat} :
    lob ks none (i + 1) = ks.get? i := rfl

theorem findIndex_cons {a : Int} {l : List Int} {k : Int} :
    findIndex (a :: l) k =
      if k < a then some 0
      else if l.isEmpty then some 1
      else (findIndex l k).map (· + 1) := rfl

theorem findIndex_le_length {ks : List Int} {k : Int} {i : Nat}
    (h : findIndex ks k = some i) : i ≤ ks.length := by
  induction ks generalizing i with
  | nil => simp [findIndex] at h
  | cons a l ih =>
    rw [findIndex_cons] at h
    split at h
    · cases h; simp
    · split at h
      · cases h; simp
      · rw [Option.map_eq_some'] at h
        obtain ⟨j, hj, rfl⟩ := h
        simpa using Nat.succ_le_succ (ih hj)

theorem findIndex_isSome {ks : List Int} (hne : ks ≠ []) (k : Int) :
    ∃ i, findIndex ks k = some i := by
  induction ks with
  | nil => exact absurd rfl hne
  | cons a l ih =>
    by_cases hk : k < a
    · exact ⟨0, by rw [findIndex_cons, if_pos hk]⟩
    · cases l with
      | nil => exact ⟨1, by rw [findIndex_cons, if_neg hk]; rfl⟩
      | cons b m =>
        obtain ⟨j, hj⟩ := ih (by simp)
        refine ⟨j + 1, ?_⟩
        rw [findIndex_cons, if_neg hk]
        simp [hj]

theorem findIndex_window {ks : List Int} {k : Int} {i : Nat} {lo hi : Option Int}
    (h : findIndex ks k = some i) (hlo : geOB lo k = true) (hhi : ltOB k hi = true) :
    geOB (lob ks lo i) k = true ∧ ltOB k (hib ks hi i) = true := by
  induction ks generalizing i lo with
  | nil => simp [findIndex] at h
  | cons a l ih =>
    rw [findIndex_cons] at h
    split at h
    · next hk =>
      cases h
      refine ⟨hlo, ?_⟩
      simpa [hib, List.get?, ltOB_some] using hk
    · next hk =>
      split at h
      · next hl =>
        cases h
        rw [List.isEmpty_iff] at hl
        subst hl
        refine ⟨?_, ?_⟩
        · simp only [lob, List.get?]
          exact geOB_some.mpr (le_of_not_lt hk)
        · simpa [hib, List.get?] using hhi
      · next hl =>
        rw [Option.map_eq_some'] at h
        obtain ⟨j, hj, rfl⟩ := h
        rw [lob_cons, hib_cons]
        exact ih hj (geOB_some.mpr (le_of_not_lt hk))

theorem gtOB_lob_none {ks : List Int} {lo : Option Int} {i : Nat} {p : Int}
    (h : gtOB (lob ks lo i) p = true) : gtOB (lob ks none i) p = true := by
  cases i with
  | zero => rfl
  | succ j => exact h

theorem findIndex_eq_of_window {ks : List Int} {p : Int} {i : Nat}
    (hle : i ≤ ks.length) (hne : ks ≠ [])
    (hsorted : List.Pairwise (· < ·) ks)
    (hlo : gtOB (lob ks none i) p = true)
    (hhi : ltOB p (hib ks none i) = true) :
    findIndex ks p = some i := by
  induction ks generalizing i with
  | nil => exact absurd rfl hne
  | cons a l ih =>
    cases i with
    | zero =>
      have hpa : p < a := by simpa [hib, List.get?, ltOB_some] using hhi
      rw [findIndex_cons, if_pos hpa]
    | succ j =>
      have hj : j ≤ l.length := Nat.succ_le_succ_iff.mp (by simpa using hle)
      have hap : a < p := by
        have hgt : ∀ x, (a :: l).get? j = some x → x < p := by
          intro x hx
          have h2 := hlo
          rw [lob_none_succ, hx] at h2
          exact gtOB_some.mp h2
        cases j with
        | zero => exact hgt a rfl
        | succ j' =>
          have hj' : j' < l.length := by omega
          cases hx : l.get? j' with
          | none =>
            have := List.get?_eq_none.mp hx
            omega
          | some x =>
            have hax : a < x :=
              (List.pairwise_cons.mp hsorted).1 x (List.get?_mem hx)
            exact lt_trans hax (hgt x (by simpa [List.get?] using hx))
      have hnpa : ¬ p < a := not_lt.mpr (le_of_lt hap)
      cases l with
      | nil =>
        have hj0 : j = 0 := by simpa using hj
        subst hj0
        rw [findIndex_cons, if_neg hnpa]
        rfl
      | cons b m =>
        have hrec : findIndex (b :: m) p = some j := by
          refine ih hj (by simp) (List.pairwise_cons.mp hsorted).2 ?_ ?_
          · cases j with
            | zero => rfl
            | succ j' => exact hlo
          · exact hhi
        rw [findIndex_cons, if_neg hnpa]
        simp [hrec]

theorem strictSortedB_iff_chain {l : List Int} :
    strictSortedB l = true ↔ List.Chain' (· < ·) l := by
  induction l with
  | nil => simp [strictSortedB]
  | cons a l ih =>
    cases l with
    | nil => simp [strictSortedB]
    | cons b m =>
      rw [List.chain'_cons, ← ih, strictSortedB, Bool.and_eq_true, decide_eq_true_iff]

theorem strictSortedB_iff {l : List Int} :
    strictSortedB l = true ↔ List.Pairwise (· < ·) l := by
  rw [strictSortedB_iff_chain, List.chain'_iff_pairwise]

theorem leafAdd_cons {ik : Int} {b : List β} {rest : List (Entry β)} {k : Int} {v : β} :
    leafAdd ((ik, b) :: rest) k v =
      if k = ik then (ik, b ++ [v]) :: rest
      else if k < ik then (k, [v]) :: (ik, b) :: rest
      else if rest.isEmpty then (ik, b) :: rest ++ [(k, [v])]
      else (ik, b) :: leafAdd rest k v := rfl

/-- Decomposition of `LeafNode.add` on a leaf with strictly sorted keys:
either the key is present and only its bucket is extended, or the key is
absent and a fresh singleton bucket is inserted at the sorted position. -/
theorem leafAdd_split {es : List (Entry β)} {k : Int} {v : β}
    (hs : List.Pairwise (· < ·) (es.map Prod.fst)) :
    (∃ b A B, es = A ++ (k, b) :: B ∧ (∀ a ∈ A, a.1 < k) ∧ (∀ x ∈ B, k < x.1) ∧
       leafAdd es k v = A ++ (k, b ++ [v]) :: B) ∨
    (k ∉ es.map Prod.fst ∧ ∃ A B, es = A ++ B ∧ (∀ a ∈ A, a.1 < k) ∧
       (∀ x ∈ B, k < x.1) ∧ leafAdd es k v = A ++ (k, [v]) :: B) := by
  induction es with
  | nil =>
    right
    exact ⟨by simp, [], [], rfl, by simp, by simp, rfl⟩
  | cons e rest ih =>
    obtain ⟨ik, b⟩ := e
    rw [List.map_cons, List.pairwise_cons] at hs
    obtain ⟨hhead, htail⟩ := hs
    by_cases h1 : k = ik
    · subst h1
      left
      refine ⟨b, [], rest, rfl, by simp, ?_, by rw [leafAdd_cons, if_pos rfl]; rfl⟩
      intro x hx
      exact hhead x.1 (List.mem_map_of_mem Prod.fst hx)
    · by_cases h2 : k < ik
      · right
        constructor
        · simp only [List.map_cons, List.mem_cons]
          rintro (rfl | hk)
          · exact h1 rfl
          · exact absurd (lt_trans h2 (hhead k hk)) (lt_irrefl k)
        · refine ⟨[], (ik, b) :: rest, rfl, by simp, ?_, ?_⟩
          · intro x hx
            rcases List.mem_cons.mp hx with rfl | hx'
            · exact h2
            · exact lt_trans h2 (hhead x.1 (List.mem_map_of_mem Prod.fst hx'))
          · rw [leafAdd_cons, if_neg h1, if_pos h2]
            rfl
      · have hik : ik < k := lt_of_le_of_ne (le_of_not_lt h2) (Ne.symm h1)
        rcases ih htail with ⟨b', A, B, hes, hA, hB, hadd⟩ | ⟨hnm, A, B, hes, hA, hB, hadd⟩
        · left
          refine ⟨b', (ik, b) :: A, B, by rw [hes]; rfl, ?_, hB, ?_⟩
          · intro a ha
            rcases List.mem_cons.mp ha with rfl | ha'
            · exact hik
            · exact hA a ha'
          · rw [leafAdd_cons, if_neg h1, if_neg h2]
            have hne : ¬ rest.isEmpty := by
              rw [hes]
              cases A <;> simp
            rw [if_neg hne, hadd]
            rfl
        · right
          constructor
          · simp only [List.map_cons, List.mem_cons]
            rintro (rfl | hk)
            · exact h1 rfl
            · exact hnm hk
          · refine ⟨(ik, b) :: A, B, by rw [hes]; rfl, ?_, hB, ?_⟩
            · intro a ha
              rcases List.mem_cons.mp ha with rfl | ha'
              · exact hik
              · exact hA a ha'
            · rw [leafAdd_cons, if_neg h1, if_neg h2]
              by_cases hre : rest.isEmpty
              · rw [if_pos hre]
                rw [List.isEmpty_iff] at hre
                subst hre
                obtain ⟨hA0, hB0⟩ := List.append_eq_nil.mp hes.symm
                subst hA0; subst hB0
                rfl
              · rw [if_neg hre, hadd]
                rfl

theorem leafAdd_length_ge {es : List (Entry β)} {k : Int} {v : β}
    (hs : List.Pairwise (· < ·) (es.map Prod.fst)) :
    es.length ≤ (leafAdd es k v).length ∧ (leafAdd es k v).length ≤ es.length + 1 := by
  rcases leafAdd_split (k := k) (v := v) hs with ⟨b, A, B, hes, -, -, hadd⟩ |
    ⟨-, A, B, hes, -, -, hadd⟩ <;> subst hes <;> rw [hadd] <;> simp <;> omega

theorem leafLookup_eq_none {es : List (Entry β)} {k : Int}
    (h : ∀ e ∈ es, e.1 ≠ k) : leafLookup es k = none := by
  induction es with
  | nil => rfl
  | cons e rest ih =>
    obtain ⟨ik, b⟩ := e
    rw [leafLookup]
    rw [if_neg fun hk => h (ik, b) (by simp) (by simp [hk.symm])]
    exact ih fun e he => h e (by simp [he])

theorem leafLookup_append {A B : List (Entry β)} {k : Int}
    (hA : ∀ a ∈ A, a.1 ≠ k) : leafLookup (A ++ B) k = leafLookup B k := by
  induction A with
  | nil => rfl
  | cons a A ih =>
    obtain ⟨ik, b⟩ := a
    rw [List.cons_append, leafLookup]
    rw [if_neg fun hk => hA (ik, b) (by simp) (by simp [hk.symm])]
    exact ih fun e he => hA e (by simp [he])

theorem leafAdd_append_left {A rest : List (Entry β)} {k : Int} {v : β}
    (hA : ∀ a ∈ A, a.1 < k) :
    leafAdd (A ++ rest) k v = A ++ leafAdd rest k v := by
  induction A with
  | nil => rfl
  | cons a A ih =>
    obtain ⟨ak, ab⟩ := a
    have hak : ak < k := hA (ak, ab) (by simp)
    rw [List.cons_append, leafAdd_cons, if_neg (ne_of_gt hak),
      if_neg (not_lt.mpr (le_of_lt hak))]
    by_cases he : (A ++ rest).isEmpty
    · rw [if_pos he]
      rw [List.isEmpty_iff, List.append_eq_nil] at he
      obtain ⟨hA0, hr0⟩ := he
      subst hA0; subst hr0
      rfl
    · rw [if_neg he, ih fun a ha => hA a (by simp [ha])]
      rfl

theorem leafAdd_append_right {B C : List (Entry β)} {k : Int} {v : β}
    (hC : ∀ c ∈ C, k < c.1) :
    leafAdd (B ++ C) k v = leafAdd B k v ++ C := by
  induction B with
  | nil =>
    cases C with
    | nil => rfl
    | cons c C' =>
      obtain ⟨ck, cb⟩ := c
      have hkc : k < ck := hC (ck, cb) (by simp)
      rw [List.nil_append, leafAdd_cons, if_neg (ne_of_lt hkc), if_pos hkc]
      rfl
  | cons e B' ih =>
    obtain ⟨bk, bb⟩ := e
    rw [List.cons_append, leafAdd_cons, leafAdd_cons]
    by_cases h1 : k = bk
    · rw [if_pos h1, if_pos h1]
      rfl
    · rw [if_neg h1, if_neg h1]
      by_cases h2 : k < bk
      · rw [if_pos h2, if_pos h2]
        rfl
      · rw [if_neg h2, if_neg h2]
        by_cases h3 : B'.isEmpty
        · rw [List.isEmpty_iff] at h3
          subst h3
          cases C with
          | nil => rfl
          | cons c C' =>
            obtain ⟨ck, cb⟩ := c
            have hkc : k < ck := hC (ck, cb) (by simp)
            have : ¬ (([] : List (Entry β)) ++ (ck, cb) :: C').isEmpty := by simp
            rw [if_neg this]
            simp only [List.isEmpty_nil, if_pos]
            rw [List.nil_append, leafAdd_cons, if_neg (ne_of_lt hkc), if_pos hkc]
            rfl
        · have hne : ¬ (B' ++ C).isEmpty := by
            rw [List.isEmpty_iff] at h3 ⊢
            simp [h3]
          rw [if_neg hne, if_neg h3, ih]
          rfl

/-- Induction over the nested tree type: a property holding for all leaves
and for internal nodes whenever it holds for every child holds everywhere. -/
theorem bnode_induction {motive : BNode β → Prop}
    (hleaf : ∀ id es, motive (.leaf id es))
    (hnode : ∀ ks cs, (∀ c ∈ cs, motive c) → motive (.node ks cs)) :
    ∀ t, motive t := by
  suffices h : ∀ n (t : BNode β), sizeOf t ≤ n → motive t from fun t => h _ t le_rfl
  intro n
  induction n with
  | zero =>
    intro t ht
    cases t <;> simp_arith at ht
  | succ n ih =>
    intro t ht
    cases t with
    | leaf id es => exact hleaf id es
    | node ks cs =>
      refine hnode ks cs fun c hc => ih c ?_
      have h1 := List.sizeOf_lt_of_mem hc
      have h2 : sizeOf (BNode.node ks cs) = 1 + sizeOf ks + sizeOf cs := by simp
      omega

theorem ordB_leaf {id : Nat} {es : List (Entry β)} {lo hi : Option Int} :
    ordB (.leaf id es) lo hi =
      (strictSortedB (es.map Prod.fst) &&
        es.all fun e => geOB lo e.1 && ltOB e.1 hi) := rfl

theorem ordB_node {ks : List Int} {cs : List (BNode β)} {lo hi : Option Int} :
    ordB (.node ks cs) lo hi = internalOrdB ks cs lo hi := rfl

theorem internalOrdB_cons {k : Int} {ks : List Int} {c : BNode β}
    {cs : List (BNode β)} {lo hi : Option Int} :
    internalOrdB (k :: ks) (c :: cs) lo hi =
      (gtOB lo k && ltOB k hi && ordB c lo (some k) &&
        internalOrdB ks cs (some k) hi) := rfl

theorem ordB_leaf_iff {id : Nat} {es : List (Entry β)} {lo hi : Option Int} :
    ordB (.leaf id es) lo hi = true ↔
      List.Pairwise (· < ·) (es.map Prod.fst) ∧
        ∀ e ∈ es, geOB lo e.1 = true ∧ ltOB e.1 hi = true := by
  rw [ordB_leaf, Bool.and_eq_true, strictSortedB_iff, List.all_eq_true]
  simp only [Bool.and_eq_true]

theorem internalOrdB_nil_iff {cs : List (BNode β)} {lo hi : Option Int} :
    internalOrdB [] cs lo hi = true ↔ ∃ c, cs = [c] ∧ ordB c lo hi = true := by
  cases cs with
  | nil => simp [internalOrdB]
  | cons c cs' =>
    cases cs' with
    | nil => simp [internalOrdB]
    | cons => simp [internalOrdB]

theorem internalOrdB_length {ks : List Int} {cs : List (BNode β)}
    {lo hi : Option Int} (h : internalOrdB ks cs lo hi = true) :
    cs.length = ks.length + 1 := by
  induction ks generalizing cs lo with
  | nil =>
    obtain ⟨c, rfl, -⟩ := internalOrdB_nil_iff.mp h
    rfl
  | cons k ks ih =>
    cases cs with
    | nil => simp [internalOrdB] at h
    | cons c cs' =>
      rw [internalOrdB_cons] at h
      simp only [Bool.and_eq_true] at h
      simpa using ih h.2

theorem gtOB_trans_lt {lo : Option Int} {a b : Int}
    (h1 : gtOB lo a = true) (h2 : a < b) : gtOB lo b = true := by
  cases lo with
  | none => rfl
  | some l => exact gtOB_some.mpr (lt_trans (gtOB_some.mp h1) h2)

theorem ltOB_trans_lt {hi : Option Int} {a b : Int}
    (h1 : a < b) (h2 : ltOB b hi = true) : ltOB a hi = true := by
  cases hi with
  | none => rfl
  | some h => exact ltOB_some.mpr (lt_trans h1 (ltOB_some.mp h2))

theorem geOB_weaken {lo : Option Int} {m e : Int}
    (h1 : gtOB lo m = true) (h2 : geOB (some m) e = true) : geOB lo e = true := by
  cases lo with
  | none => rfl
  | some l => exact geOB_some.mpr (le_of_lt (lt_of_lt_of_le (gtOB_some.mp h1) (geOB_some.mp h2)))

theorem ltOB_weaken {hi : Option Int} {m e : Int}
    (h1 : ltOB e (some m) = true) (h2 : ltOB m hi = true) : ltOB e hi = true :=
  ltOB_trans_lt (ltOB_some.mp h1) h2

theorem gtOB_weaken {lo : Option Int} {m e : Int}
    (h1 : gtOB lo m = true) (h2 : gtOB (some m) e = true) : gtOB lo e = true :=
  gtOB_trans_lt h1 (gtOB_some.mp h2)

theorem internalOrdB_sep_facts {ks : List Int} {cs : List (BNode β)}
    {lo hi : Option Int} (h : internalOrdB ks cs lo hi = true) :
    List.Pairwise (· < ·) ks ∧
      ∀ k ∈ ks, gtOB lo k = true ∧ ltOB k hi = true := by
  induction ks generalizing cs lo with
  | nil => simp
  | cons k ks ih =>
    cases cs with
    | nil => simp [internalOrdB] at h
    | cons c cs' =>
      rw [internalOrdB_cons] at h
      simp only [Bool.and_eq_true] at h
      obtain ⟨⟨⟨h1, h2⟩, -⟩, h4⟩ := h
      obtain ⟨hp, hball⟩ := ih h4
      constructor
      · rw [List.pairwise_cons]
        exact ⟨fun x hx => gtOB_some.mp (hball x hx).1, hp⟩
      · intro x hx
        rcases List.mem_cons.mp hx with rfl | hx'
        · exact ⟨h1, h2⟩
        · exact ⟨gtOB_weaken h1 (hball x hx').1, (hball x hx').2⟩

theorem internalOrdB_extract {ks : List Int} {cs : List (BNode β)}
    {lo hi : Option Int} {i : Nat}
    (h : internalOrdB ks cs lo hi = true) (hil : i ≤ ks.length) :
    ∃ c, cs.get? i = some c ∧ ordB c (lob ks lo i) (hib ks hi i) = true := by
  induction ks generalizing cs lo i with
  | nil =>
    have hi0 : i = 0 := by simpa using hil
    subst hi0
    obtain ⟨c, rfl, hc⟩ := internalOrdB_nil_iff.mp h
    exact ⟨c, rfl, hc⟩
  | cons k ks ih =>
    cases cs with
    | nil => simp [internalOrdB] at h
    | cons c cs' =>
      rw [internalOrdB_cons] at h
      simp only [Bool.and_eq_true] at h
      obtain ⟨⟨⟨-, -⟩, h3⟩, h4⟩ := h
      cases i with
      | zero => exact ⟨c, rfl, h3⟩
      | succ j =>
        rw [lob_cons, hib_cons]
        exact ih h4 (by simpa using hil)

theorem internalOrdB_set {ks : List Int} {cs : List (BNode β)}
    {lo hi : Option Int} {i : Nat} {c' : BNode β}
    (h : internalOrdB ks cs lo hi = true) (hil : i ≤ ks.length)
    (hc : ordB c' (lob ks lo i) (hib ks hi i) = true) :
    internalOrdB ks (cs.set i c') lo hi = true := by
  induction ks generalizing cs lo i with
  | nil =>
    have hi0 : i = 0 := by simpa using hil
    subst hi0
    obtain ⟨c, rfl, -⟩ := internalOrdB_nil_iff.mp h
    simpa [internalOrdB] using hc
  | cons k ks ih =>
    cases cs with
    | nil => simp [internalOrdB] at h
    | cons c cs' =>
      rw [internalOrdB_cons] at h
      simp only [Bool.and_eq_true] at h
      obtain ⟨⟨⟨h1, h2⟩, h3⟩, h4⟩ := h
      cases i with
      | zero =>
        rw [List.set_cons_zero, internalOrdB_cons]
        simp only [Bool.and_eq_true]
        exact ⟨⟨⟨h1, h2⟩, hc⟩, h4⟩
      | succ j =>
        rw [lob_cons, hib_cons] at hc
        rw [List.set_cons_succ, internalOrdB_cons]
        simp only [Bool.and_eq_true]
        exact ⟨⟨⟨h1, h2⟩, h3⟩, ih h4 (by simpa using hil) hc⟩

theorem internalOrdB_splice {ks : List Int} {cs : List (BNode β)}
    {lo hi : Option Int} {i : Nat} {p : Int} {l r : BNode β}
    (h : internalOrdB ks cs lo hi = true) (hil : i ≤ ks.length)
    (hl : ordB l (lob ks lo i) (some p) = true)
    (hr : ordB r (some p) (hib ks hi i) = true)
    (hplo : gtOB (lob ks lo i) p = true)
    (hphi : ltOB p (hib ks hi i) = true) :
    internalOrdB (ks.take i ++ p :: ks.drop i)
      (cs.take i ++ l :: r :: cs.drop (i + 1)) lo hi = true := by
  induction ks generalizing cs lo i with
  | nil =>
    have hi0 : i = 0 := by simpa using hil
    subst hi0
    obtain ⟨c, rfl, -⟩ := internalOrdB_nil_iff.mp h
    simp only [List.take_nil, List.drop_nil, List.nil_append, List.take_zero,
      List.drop_succ_cons, List.drop_nil]
    rw [internalOrdB_cons]
    simp only [Bool.and_eq_true]
    exact ⟨⟨⟨hplo, hphi⟩, hl⟩, by simpa [internalOrdB] using hr⟩
  | cons k ks ih =>
    cases cs with
    | nil => simp [internalOrdB] at h
    | cons c cs' =>
      rw [internalOrdB_cons] at h
      simp only [Bool.and_eq_true] at h
      obtain ⟨⟨⟨h1, h2⟩, h3⟩, h4⟩ := h
      cases i with
      | zero =>
        have hpk : p < k := by
          have : hib (k :: ks) hi 0 = some k := rfl
          rw [this] at hphi
          exact ltOB_some.mp hphi
        simp only [List.take_zero, List.drop_zero, List.nil_append,
          List.drop_succ_cons]
        rw [internalOrdB_cons]
        simp only [Bool.and_eq_true]
        refine ⟨⟨⟨hplo, ltOB_trans_lt hpk h2⟩, hl⟩, ?_⟩
        rw [internalOrdB_cons]
        simp only [Bool.and_eq_true]
        exact ⟨⟨⟨gtOB_some.mpr hpk, h2⟩, hr⟩, h4⟩
      | succ j =>
        rw [lob_cons] at hl hplo
        rw [hib_cons] at hr hphi
        simp only [List.take_succ_cons, List.drop_succ_cons, List.cons_append]
        rw [internalOrdB_cons]
        simp only [Bool.and_eq_true]
        exact ⟨⟨⟨h1, h2⟩, h3⟩, ih h4 (by simpa using hil) hl hr hplo hphi⟩

theorem occListB_iff {M : Nat} {cs : List (BNode β)} :
    occListB M cs = true ↔ ∀ c ∈ cs, occB M c = true := by
  induction cs with
  | nil => simp [occListB]
  | cons c cs ih => simp [occListB, Bool.and_eq_true, ih]

theorem leafRecsL_append {cs ds : List (BNode β)} :
    leafRecsL (cs ++ ds) = leafRecsL cs ++ leafRecsL ds := by
  induction cs with
  | nil => rfl
  | cons c cs ih => simp [leafRecsL, ih]

theorem toEntries_leaf {id : Nat} {es : List (Entry β)} :
    toEntries (.leaf id es) = es := by
  simp [toEntries, leafRecs]

theorem toEntries_node {ks : List Int} {cs : List (BNode β)} :
    toEntries (.node ks cs) = toEntriesL cs := rfl

theorem toEntriesL_nil : toEntriesL ([] : List (BNode β)) = [] := rfl

theorem toEntriesL_cons {c : BNode β} {cs : List (BNode β)} :
    toEntriesL (c :: cs) = toEntries c ++ toEntriesL cs := by
  simp [toEntriesL, leafRecsL, toEntries]

theorem toEntriesL_append {cs ds : List (BNode β)} :
    toEntriesL (cs ++ ds) = toEntriesL cs ++ toEntriesL ds := by
  simp [toEntriesL, leafRecsL_append]

theorem leafIds_leaf {id : Nat} {es : List (Entry β)} :
    leafIds (.leaf id es) = [id] := rfl

theorem leafIds_node {ks : List Int} {cs : List (BNode β)} :
    leafIds (.node ks cs) = leafIdsL cs := rfl

theorem leafIdsL_nil : leafIdsL ([] : List (BNode β)) = [] := rfl

theorem leafIdsL_cons {c : BNode β} {cs : List (BNode β)} :
    leafIdsL (c :: cs) = leafIds c ++ leafIdsL cs := by
  simp [leafIdsL, leafRecsL, leafIds]

theorem leafIdsL_append {cs ds : List (BNode β)} :
    leafIdsL (cs ++ ds) = leafIdsL cs ++ leafIdsL ds := by
  simp [leafIdsL, leafRecsL_append]

/-- The leaf entries of a search-order-correct subtree have strictly sorted
keys lying inside the subtree's window. -/
theorem ordB_entries :
    ∀ t : BNode β, ∀ lo hi, ordB t lo hi = true →
      List.Pairwise (· < ·) ((toEntries t).map Prod.fst) ∧
        ∀ e ∈ toEntries t, geOB lo e.1 = true ∧ ltOB e.1 hi = true := by
  intro t
  induction t using bnode_induction with
  | hleaf id es =>
    intro lo hi h
    rw [toEntries_leaf]
    exact ordB_leaf_iff.mp h
  | hnode ks cs ihc =>
    intro lo hi h
    rw [ordB_node] at h
    rw [toEntries_node]
    induction ks generalizing cs lo with
    | nil =>
      obtain ⟨c, rfl, hc⟩ := internalOrdB_nil_iff.mp h
      have := ihc c (by simp) lo hi hc
      simpa [toEntriesL_cons, toEntriesL_nil] using this
    | cons k ks ih =>
      cases cs with
      | nil => simp [internalOrdB] at h
      | cons c cs' =>
        rw [internalOrdB_cons] at h
        simp only [Bool.and_eq_true] at h
        obtain ⟨⟨⟨h1, h2⟩, h3⟩, h4⟩ := h
        obtain ⟨hcs, hcb⟩ := ihc c (by simp) lo (some k) h3
        obtain ⟨hrs, hrb⟩ := ih cs' (fun c' hc' => ihc c' (by simp [hc'])) (some k) h4
        rw [toEntriesL_cons]
        constructor
        · rw [List.map_append, List.pairwise_append]
          refine ⟨hcs, hrs, ?_⟩
          intro a ha b hb
          simp only [List.mem_map] at ha hb
          obtain ⟨ea, hea, rfl⟩ := ha
          obtain ⟨eb, heb, rfl⟩ := hb
          have h5 : ea.1 < k := ltOB_some.mp (hcb ea hea).2
          have h6 : k ≤ eb.1 := geOB_some.mp (hrb eb heb).1
          exact lt_of_lt_of_le h5 h6
        · intro e he
          rcases List.mem_append.mp he with he' | he'
          · exact ⟨(hcb e he').1, ltOB_weaken (hcb e he').2 h2⟩
          · exact ⟨geOB_weaken h1 (hrb e he').1, (hrb e he').2⟩

theorem internalOrdB_take {ks : List Int} {cs : List (BNode β)}
    {lo hi : Option Int} {m : Nat} {p : Int}
    (h : internalOrdB ks cs lo hi = true) (hp : ks.get? m = some p) :
    internalOrdB (ks.take m) (cs.take (m + 1)) lo (some p) = true := by
  induction ks generalizing cs lo m with
  | nil => simp [List.get?] at hp
  | cons k ks ih =>
    cases cs with
    | nil => simp [internalOrdB] at h
    | cons c cs' =>
      rw [internalOrdB_cons] at h
      simp only [Bool.and_eq_true] at h
      obtain ⟨⟨⟨h1, h2⟩, h3⟩, h4⟩ := h
      cases m with
      | zero =>
        have hk : k = p := by simpa [List.get?] using hp
        subst hk
        simpa [internalOrdB] using h3
      | succ j =>
        have hp' : ks.get? j = some p := hp
        have hkp : k < p := by
          have := (internalOrdB_sep_facts h4).2 p (List.get?_mem hp')
          exact gtOB_some.mp this.1
        simp only [List.take_succ_cons]
        rw [internalOrdB_cons]
        simp only [Bool.and_eq_true]
        exact ⟨⟨⟨h1, ltOB_some.mpr hkp⟩, h3⟩, ih h4 hp'⟩

theorem internalOrdB_drop {ks : List Int} {cs : List (BNode β)}
    {lo hi : Option Int} {m : Nat} {p : Int}
    (h : internalOrdB ks cs lo hi = true) (hp : ks.get? m = some p) :
    internalOrdB (ks.drop (m + 1)) (cs.drop (m + 1)) (some p) hi = true := by
  induction ks generalizing cs lo m with
  | nil => simp [List.get?] at hp
  | cons k ks ih =>
    cases cs with
    | nil => simp [internalOrdB] at h
    | cons c cs' =>
      rw [internalOrdB_cons] at h
      simp only [Bool.and_eq_true] at h
      obtain ⟨⟨⟨-, -⟩, -⟩, h4⟩ := h
      cases m with
      | zero =>
        have hk : k = p := by simpa [List.get?] using hp
        subst hk
        exact h4
      | succ j => exact ih h4 hp

theorem gtOB_of_ge_lt {lo : Option Int} {a b : Int}
    (h1 : geOB lo a = true) (h2 : a < b) : gtOB lo b = true := by
  cases lo with
  | none => rfl
  | some l => exact gtOB_some.mpr (lt_of_le_of_lt (geOB_some.mp h1) h2)

/-- Behaviour of `node.split()` on a node that has reached `order` keys:
the result is a one-key top node over two search-order-correct,
occupancy-correct halves holding the same entries; a leaf split additionally
creates a fresh right-leaf identity and relinks the forward chain. -/
theorem splitStep_ok {M : Nat} {r : BNode β} {lo hi : Option Int} {q : Chain}
    (hM : 3 ≤ M) (hord : ordB r lo hi = true) (hocc : occXB M r = true)
    (hn : nkeys r = M) :
    ∃ p l rr residue ch₂,
      splitStep M r q = some (.node [p] [l, rr], residue, ch₂) ∧
      ordB l lo (some p) = true ∧ ordB rr (some p) hi = true ∧
      gtOB lo p = true ∧ ltOB p hi = true ∧
      occB M l = true ∧ occB M rr = true ∧
      toEntriesL [l, rr] = toEntries r ∧
      ((leafIdsL [l, rr] = leafIds r ∧ ch₂ = q) ∨
       (∃ sid, leafIds r = [sid] ∧ leafIdsL [l, rr] = [sid, q.counter] ∧
          ch₂ = splitChain q sid)) := by
  cases r with
  | leaf sid es =>
    have hlen : es.length = M := hn
    have hmid1 : 1 ≤ M / 2 := by omega
    have hmidM : M / 2 < M := by omega
    obtain ⟨hps, hpb⟩ := ordB_leaf_iff.mp hord
    cases hdrop : es.drop (M / 2) with
    | nil =>
      have := congrArg List.length hdrop
      simp [List.length_drop, hlen] at this
      omega
    | cons e rest =>
      cases htake : es.take (M / 2) with
      | nil =>
        have := congrArg List.length htake
        simp [List.length_take, hlen] at this
        omega
      | cons e0 t0 =>
        have hsplit : es.take (M / 2) ++ es.drop (M / 2) = es :=
          List.take_append_drop _ es
        have hpair :
            List.Pairwise (· < ·)
              ((es.take (M / 2)).map Prod.fst ++ (es.drop (M / 2)).map Prod.fst) := by
          rw [← List.map_append, hsplit]
          exact hps
        rw [List.pairwise_append] at hpair
        obtain ⟨hpt, hpd, hcross⟩ := hpair
        have hbt : ∀ a ∈ es.take (M / 2), geOB lo a.1 = true ∧ ltOB a.1 hi = true :=
          fun a ha => hpb a (hsplit ▸ List.mem_append_left _ ha)
        have hbd : ∀ a ∈ es.drop (M / 2), geOB lo a.1 = true ∧ ltOB a.1 hi = true :=
          fun a ha => hpb a (hsplit ▸ List.mem_append_right _ ha)
        have hemem : e ∈ es.drop (M / 2) := by rw [hdrop]; exact List.mem_cons_self _ _
        have he0mem : e0 ∈ es.take (M / 2) := by rw [htake]; exact List.mem_cons_self _ _
        have hcross' : ∀ a ∈ es.take (M / 2), a.1 < e.1 := fun a ha =>
          hcross a.1 (List.mem_map_of_mem Prod.fst ha) e.1 (List.mem_map_of_mem Prod.fst hemem)
        refine ⟨e.1, .leaf sid (es.take (M / 2)), .leaf q.counter (es.drop (M / 2)),
          .leaf sid (es.take (M / 2)), splitChain q sid, ?_, ?_, ?_, ?_, ?_, ?_, ?_, ?_, ?_⟩
        · simp only [splitStep, leafSplit, hdrop]
          rfl
        · rw [ordB_leaf_iff]
          exact ⟨hpt, fun a ha => ⟨(hbt a ha).1, ltOB_some.mpr (hcross' a ha)⟩⟩
        · rw [ordB_leaf_iff]
          refine ⟨hpd, fun a ha => ⟨?_, (hbd a ha).2⟩⟩
          rw [hdrop] at ha
          rcases List.mem_cons.mp ha with rfl | ha'
          · exact geOB_some.mpr le_rfl
          · refine geOB_some.mpr (le_of_lt ?_)
            have : List.Pairwise (· < ·) (e.1 :: rest.map Prod.fst) := by
              rw [← List.map_cons, ← hdrop]
              exact hpd
            exact (List.pairwise_cons.mp this).1 a.1 (List.mem_map_of_mem Prod.fst ha')
        · exact gtOB_of_ge_lt (hbt e0 he0mem).1 (hcross' e0 he0mem)
        · exact (hbd e hemem).2
        · rw [occB]
          simp only [Bool.and_eq_true, decide_eq_true_iff]
          rw [List.length_take]
          omega
        · rw [occB]
          simp only [Bool.and_eq_true, decide_eq_true_iff]
          rw [List.length_drop]
          omega
        · rw [toEntriesL_cons, toEntriesL_cons, toEntriesL_nil, toEntries_leaf,
            toEntries_leaf, toEntries_leaf, List.append_nil]
          exact hsplit
        · right
          exact ⟨sid, rfl, rfl, rfl⟩
  | node ks cs =>
    have hlen : ks.length = M := hn
    rw [ordB_node] at hord
    have harity : cs.length = ks.length + 1 := internalOrdB_length hord
    have hmid1 : 1 ≤ M / 2 := by omega
    have hmidM : M / 2 < M := by omega
    cases hdrop : ks.drop (M / 2) with
    | nil =>
      have := congrArg List.length hdrop
      simp [List.length_drop, hlen] at this
      omega
    | cons p rest =>
      have hp : ks.get? (M / 2) = some p := by
        have h0 : (ks.drop (M / 2)).get? 0 = some p := by rw [hdrop]; rfl
        rwa [List.get?_drop, Nat.add_zero] at h0
      have hmem : p ∈ ks := List.get?_mem hp
      obtain ⟨-, hsep⟩ := internalOrdB_sep_facts hord
      refine ⟨p, .node (ks.take (M / 2)) (cs.take (M / 2 + 1)),
        .node (ks.drop (M / 2 + 1)) (cs.drop (M / 2 + 1)),
        .node [p] [.node (ks.take (M / 2)) (cs.take (M / 2 + 1)),
          .node (ks.drop (M / 2 + 1)) (cs.drop (M / 2 + 1))],
        q, ?_, ?_, ?_, ?_, ?_, ?_, ?_, ?_, ?_⟩
      · simp only [splitStep, nodeSplit, hdrop]
        rfl
      · rw [ordB_node]
        exact internalOrdB_take hord hp
      · rw [ordB_node]
        exact internalOrdB_drop hord hp
      · exact (hsep p hmem).1
      · exact (hsep p hmem).2
      · rw [occB]
        simp only [Bool.and_eq_true, decide_eq_true_iff]
        refine ⟨⟨?_, ?_⟩, ?_⟩
        · rw [List.length_take]; omega
        · rw [List.length_take]; omega
        · rw [occListB_iff]
          intro c hc
          exact occListB_iff.mp hocc c ((List.take_sublist _ _).subset hc)
      · rw [occB]
        simp only [Bool.and_eq_true, decide_eq_true_iff]
        refine ⟨⟨?_, ?_⟩, ?_⟩
        · rw [List.length_drop]; omega
        · rw [List.length_drop]; omega
        · rw [occListB_iff]
          intro c hc
          exact occListB_iff.mp hocc c ((List.drop_sublist _ _).subset hc)
      · rw [toEntriesL_cons, toEntriesL_cons, toEntriesL_nil, toEntries_node,
          toEntries_node, toEntries_node, List.append_nil, ← toEntriesL_append,
          List.take_append_drop]
      · left
        constructor
        · rw [leafIdsL_cons, leafIdsL_cons, leafIdsL_nil, leafIds_node,
            leafIds_node, leafIds_node, List.append_nil, ← leafIdsL_append,
            List.take_append_drop]
        · rfl

theorem eraseIdx_set_same {α : Type} {l : List α} {i : Nat} {x : α} :
    (l.set i x).eraseIdx i = l.eraseIdx i := by
  induction l generalizing i with
  | nil => rfl
  | cons a l ih =>
    cases i with
    | zero => rfl
    | succ j =>
      show (a :: l.set j x).eraseIdx (j + 1) = (a :: l).eraseIdx (j + 1)
      rw [List.eraseIdx_cons_succ, List.eraseIdx_cons_succ, ih]

theorem mergeUpScan_cons {k : Int} {ks : List Int} {vs : List (BNode β)}
    {p : Int} {ccs : List (BNode β)} :
    mergeUpScan (k :: ks) vs p ccs =
      if p < k then (p :: k :: ks, ccs ++ vs)
      else if ks.isEmpty then (k :: ks ++ [p], vs ++ ccs)
      else
        match vs with
        | [] =>
          let r := mergeUpScan ks [] p ccs
          (k :: r.1, r.2)
        | v :: vs' =>
          let r := mergeUpScan ks vs' p ccs
          (k :: r.1, v :: r.2) := rfl

theorem head_lt_of_lob {k : Int} {ks : List Int} {j : Nat} {p : Int}
    (hsorted : List.Pairwise (· < ·) (k :: ks)) (hj : j + 1 ≤ (k :: ks).length)
    (hlo : gtOB (lob (k :: ks) none (j + 1)) p = true) : k < p := by
  have hgt : ∀ x, (k :: ks).get? j = some x → x < p := by
    intro x hx
    have h2 := hlo
    rw [lob_none_succ, hx] at h2
    exact gtOB_some.mp h2
  cases j with
  | zero => exact hgt k rfl
  | succ j' =>
    have hj' : j' < ks.length := by simpa using hj
    cases hx : ks.get? j' with
    | none =>
      have := List.get?_eq_none.mp hx
      omega
    | some x =>
      have hax : k < x :=
        (List.pairwise_cons.mp hsorted).1 x (List.get?_mem hx)
      exact lt_trans hax (hgt x (by simpa [List.get?] using hx))

/-- The `_mergeUp` splice loop, under the conditions produced by a child
split at position `i`: the pivot is inserted at key position `i` and the two
split children replace the popped child slot at child position `i`. -/
theorem mergeUpScan_eq {ks : List Int} {w u : List (BNode β)} {p : Int}
    {i : Nat} (hil : i ≤ ks.length) (hne : ks ≠ [])
    (hvs : w.length = ks.length)
    (hsorted : List.Pairwise (· < ·) ks)
    (hlo : gtOB (lob ks none i) p = true)
    (hhi : ltOB p (hib ks none i) = true) :
    mergeUpScan ks w p u =
      (ks.take i ++ p :: ks.drop i, w.take i ++ u ++ w.drop i) := by
  induction ks generalizing w i with
  | nil => exact absurd rfl hne
  | cons k ks ih =>
    cases i with
    | zero =>
      have hpk : p < k := by simpa [hib, List.get?, ltOB_some] using hhi
      rw [mergeUpScan_cons, if_pos hpk]
      simp
    | succ j =>
      have hkp : k < p := head_lt_of_lob hsorted hil hlo
      rw [mergeUpScan_cons, if_neg (not_lt.mpr (le_of_lt hkp))]
      by_cases hks : ks.isEmpty
      · rw [if_pos hks]
        rw [List.isEmpty_iff] at hks
        subst hks
        have hj0 : j = 0 := by simpa using hil
        subst hj0
        have hv1 : w.length = 1 := by simpa using hvs
        simp only [List.take_succ_cons, List.take_nil, List.drop_succ_cons,
          List.drop_nil]
        rw [List.take_of_length_le (le_of_eq hv1), List.drop_of_length_le (le_of_eq hv1)]
        simp
      · rw [if_neg hks]
        rw [List.isEmpty_iff] at hks
        cases w with
        | nil =>
          exfalso
          have : ks.length + 1 = 0 := by simpa using hvs.symm
          omega
        | cons v w' =>
          have hrec : mergeUpScan ks w' p u =
              (ks.take j ++ p :: ks.drop j, w'.take j ++ u ++ w'.drop j) := by
            refine ih (by simpa using hil) hks (by simpa using hvs)
              (List.pairwise_cons.mp hsorted).2 ?_ ?_
            · cases j with
              | zero => rfl
              | succ j' => exact hlo
            · exact hhi
          simp only [hrec]
          simp [List.take_succ_cons, List.drop_succ_cons]

theorem ordB_leafAdd {id : Nat} {es : List (Entry β)} {k : Int} {v : β}
    {lo hi : Option Int} (h : ordB (.leaf id es) lo hi = true)
    (hlo : geOB lo k = true) (hhi : ltOB k hi = true) :
    ordB (.leaf id (leafAdd es k v)) lo hi = true := by
  obtain ⟨hs, hb⟩ := ordB_leaf_iff.mp h
  rw [ordB_leaf_iff]
  rcases leafAdd_split (k := k) (v := v) hs with
    ⟨b, A, B, hes, hA, hB, hadd⟩ | ⟨-, A, B, hes, hA, hB, hadd⟩
  · subst hes
    rw [hadd]
    constructor
    · have : ((A ++ (k, b) :: B).map Prod.fst : List Int) =
          (A ++ (k, b ++ [v]) :: B).map Prod.fst := by simp
      rw [← this]
      exact hs
    · intro e he
      rcases List.mem_append.mp he with he' | he'
      · exact hb e (List.mem_append_left _ he')
      · rcases List.mem_cons.mp he' with rfl | he'' <;>
          [exact ⟨hlo, hhi⟩;
           exact hb e (List.mem_append_right _ (List.mem_cons_of_mem _ he''))]
  · subst hes
    rw [hadd]
    constructor
    · rw [List.map_append, List.pairwise_append] at hs
      obtain ⟨hsA, hsB, hsc⟩ := hs
      rw [List.map_append, List.map_cons, List.pairwise_append]
      refine ⟨hsA, ?_, ?_⟩
      · rw [List.pairwise_cons]
        exact ⟨fun x hx => by
          obtain ⟨e, he, rfl⟩ := List.mem_map.mp hx
          exact hB e he, hsB⟩
      · intro a ha x hx
        obtain ⟨ea, hea, rfl⟩ := List.mem_map.mp ha
        rcases List.mem_cons.mp hx with rfl | hx'
        · exact hA ea hea
        · exact hsc ea.1 (List.mem_map_of_mem Prod.fst hea) x hx'
    · intro e he
      rcases List.mem_append.mp he with he' | he'
      · exact hb e (List.mem_append_left _ he')
      · rcases List.mem_cons.mp he' with rfl | he''
        · exact ⟨hlo, hhi⟩
        · exact hb e (List.mem_append_right _ he'')

theorem occB_parts {M : Nat} {c : BNode β} (h : occB M c = true) :
    occXB M c = true ∧ nkeys c ≤ M - 1 ∧
      (∀ ks' cs', c = BNode.node ks' cs' → ks' ≠ []) ∧
      (∀ id es, c = BNode.leaf id es → M / 2 ≤ es.length) := by
  cases c with
  | leaf id es =>
    rw [occB] at h
    simp only [Bool.and_eq_true, decide_eq_true_iff] at h
    refine ⟨rfl, h.2, ?_, ?_⟩
    · intro ks' cs' h'
      cases h'
    · intro id' es' h'
      cases h'
      exact h.1
  | node ks cs =>
    rw [occB] at h
    simp only [Bool.and_eq_true, decide_eq_true_iff] at h
    obtain ⟨⟨hge, hle⟩, hlist⟩ := h
    refine ⟨hlist, hle, ?_, ?_⟩
    · intro ks' cs' h'
      cases h'
      intro h0
      subst h0
      simp at hge
    · intro id' es' h'
      cases h'

theorem occB_build {M : Nat} {c : BNode β} (h1 : occXB M c = true)
    (h2 : nkeys c ≤ M - 1)
    (h3 : ∀ ks' cs', c = BNode.node ks' cs' → ks' ≠ [])
    (h4 : ∀ id es, c = BNode.leaf id es → M / 2 ≤ es.length) :
    occB M c = true := by
  cases c with
  | leaf id es =>
    rw [occB]
    simp only [Bool.and_eq_true, decide_eq_true_iff]
    exact ⟨h4 id es rfl, h2⟩
  | node ks cs =>
    rw [occB]
    simp only [Bool.and_eq_true, decide_eq_true_iff]
    have hne := h3 ks cs rfl
    exact ⟨⟨by cases ks <;> simp_all, h2⟩, h1⟩

theorem occListB_set {M : Nat} {cs : List (BNode β)} {i : Nat} {c' : BNode β}
    (h : occListB M cs = true) (hc : occB M c' = true) :
    occListB M (cs.set i c') = true := by
  rw [occListB_iff]
  intro x hx
  rcases List.mem_or_eq_of_mem_set hx with hx' | rfl
  · exact occListB_iff.mp h x hx'
  · exact hc

theorem insertChild_eq {M : Nat} {k : Int} {v : β} {cs : List (BNode β)}
    {i : Nat} {ch : Chain} {c : BNode β} (h : cs.get? i = some c) :
    insertChild M k v cs i ch = insertAux M k v c ch := by
  induction cs generalizing i with
  | nil => simp [List.get?] at h
  | cons c0 cs' ih =>
    cases i with
    | zero =>
      have : c0 = c := by simpa [List.get?] using h
      subst this
      rfl
    | succ j =>
      have h' : cs'.get? j = some c := h
      rw [insertChild, ih h']

theorem insertAux_node {M : Nat} {k : Int} {v : β} {ks : List Int}
    {cs : List (BNode β)} {ch : Chain} :
    insertAux M k v (.node ks cs) ch =
      (match findIndex ks k with
      | none => none
      | some i =>
        match insertChild M k v cs i ch with
        | none => none
        | some (c', ch') =>
          if nkeys c' = M then
            match splitStep M c' ch' with
            | none => none
            | some (top, residue, ch'') =>
              match top with
              | .leaf _ _ => none
              | .node [] _ => none
              | .node (pivot :: _) _ =>
                match findIndex ks pivot with
                | none => none
                | some index =>
                  match mergeUp ks (cs.set i residue) index top with
                  | none => none
                  | some (ks', cs') => some (.node ks' cs', ch'')
          else some (.node ks (cs.set i c'), ch')) := rfl

theorem list_decomp_at {α : Type} {l : List α} {i : Nat} {x : α}
    (h : l.get? i = some x) : l = l.take i ++ x :: l.drop (i + 1) := by
  induction l generalizing i with
  | nil => simp [List.get?] at h
  | cons a l ih =>
    cases i with
    | zero =>
      have : a = x := by simpa [List.get?] using h
      subst this
      simp
    | succ j =>
      have h' : l.get? j = some x := h
      simpa using ih h'

theorem set_decomp_at {α : Type} {l : List α} {i : Nat} {x c' : α}
    (h : l.get? i = some x) : l.set i c' = l.take i ++ c' :: l.drop (i + 1) := by
  induction l generalizing i with
  | nil => simp [List.get?] at h
  | cons a l ih =>
    cases i with
    | zero => simp
    | succ j =>
      have h' : l.get? j = some x := h
      simpa using ih h'

theorem eraseIdx_take {α : Type} {l : List α} {i : Nat} :
    (l.eraseIdx i).take i = l.take i := by
  induction l generalizing i with
  | nil => rfl
  | cons a l ih =>
    cases i with
    | zero => rfl
    | succ j =>
      rw [List.eraseIdx_cons_succ, List.take_succ_cons, List.take_succ_cons, ih]

theorem eraseIdx_drop {α : Type} {l : List α} {i : Nat} :
    (l.eraseIdx i).drop i = l.drop (i + 1) := by
  induction l generalizing i with
  | nil => simp
  | cons a l ih =>
    cases i with
    | zero => rfl
    | succ j =>
      rw [List.eraseIdx_cons_succ, List.drop_succ_cons, ih]
      rfl

theorem length_eraseIdx_at {α : Type} {l : List α} {i : Nat} {x : α}
    (h : l.get? i = some x) : (l.eraseIdx i).length = l.length - 1 := by
  induction i generalizing l with
  | zero =>
    cases l with
    | nil => simp [List.get?] at h
    | cons a l => simp
  | succ j ih =>
    cases l with
    | nil => simp [List.get?] at h
    | cons a l =>
      have h' : l.get? j = some x := h
      have hl : l ≠ [] := by
        intro h0
        subst h0
        simp [List.get?] at h'
      rw [List.eraseIdx_cons_succ]
      simp only [List.length_cons, ih h']
      have : 1 ≤ l.length := by
        cases l with
        | nil => exact absurd rfl hl
        | cons => simp
      omega

theorem internalOrd_entries_bounds {ks : List Int} {cs : List (BNode β)}
    {lo hi : Option Int} (h : internalOrdB ks cs lo hi = true) :
    ∀ e ∈ toEntriesL cs, geOB lo e.1 = true ∧ ltOB e.1 hi = true := by
  have h2 := ordB_entries (.node ks cs) lo hi (by rw [ordB_node]; exact h)
  simpa [toEntries_node] using h2.2

theorem geOB_of_window {ks : List Int} {cs : List (BNode β)} {lo hi : Option Int}
    {i : Nat} {k : Int} (h : internalOrdB ks cs lo hi = true)
    (hil : i ≤ ks.length) (hk : geOB (lob ks lo i) k = true) :
    geOB lo k = true := by
  cases i with
  | zero => exact hk
  | succ j =>
    rw [lob] at hk
    cases hx : ks.get? j with
    | none =>
      have := List.get?_eq_none.mp hx
      omega
    | some x =>
      rw [hx] at hk
      have hsep := (internalOrdB_sep_facts h).2 x (List.get?_mem hx)
      exact geOB_weaken hsep.1 hk

theorem ltOB_of_window {ks : List Int} {cs : List (BNode β)} {lo hi : Option Int}
    {i : Nat} {k : Int} (h : internalOrdB ks cs lo hi = true)
    (hk : ltOB k (hib ks hi i) = true) : ltOB k hi = true := by
  rw [hib] at hk
  cases hx : ks.get? i with
  | none =>
    rw [hx] at hk
    exact hk
  | some x =>
    rw [hx] at hk
    have hsep := (internalOrdB_sep_facts h).2 x (List.get?_mem hx)
    exact ltOB_weaken hk hsep.2

theorem ltOB_hib_none {ks : List Int} {hi : Option Int} {i : Nat} {p : Int}
    (h : ltOB p (hib ks hi i) = true) : ltOB p (hib ks none i) = true := by
  rw [hib] at h ⊢
  cases hx : ks.get? i with
  | none => rfl
  | some x =>
    rw [hx] at h
    exact h

/-- Keys routed into the `i`-th child separate the entries of the children
before and after it. -/
theorem toEntriesL_window_split {ks : List Int} {cs : List (BNode β)}
    {lo hi : Option Int} {i : Nat} {k : Int}
    (hord : internalOrdB ks cs lo hi = true) (hil : i ≤ ks.length)
    (hklo : geOB (lob ks lo i) k = true) (hkhi : ltOB k (hib ks hi i) = true) :
    (∀ e ∈ toEntriesL (cs.take i), e.1 < k) ∧
      (∀ e ∈ toEntriesL (cs.drop (i + 1)), k < e.1) := by
  induction ks generalizing cs lo i with
  | nil =>
    have hi0 : i = 0 := by simpa using hil
    subst hi0
    obtain ⟨c, rfl, -⟩ := internalOrdB_nil_iff.mp hord
    exact ⟨by simp [toEntriesL_nil], by simp [toEntriesL_nil]⟩
  | cons k0 ks ih =>
    cases cs with
    | nil => simp [internalOrdB] at hord
    | cons c cs' =>
      rw [internalOrdB_cons] at hord
      simp only [Bool.and_eq_true] at hord
      obtain ⟨⟨⟨h1, h2⟩, h3⟩, h4⟩ := hord
      cases i with
      | zero =>
        refine ⟨by simp [toEntriesL_nil], ?_⟩
        intro e he
        have hk0 : k < k0 := by
          have : hib (k0 :: ks) hi 0 = some k0 := rfl
          rw [this] at hkhi
          exact ltOB_some.mp hkhi
        have hb := internalOrd_entries_bounds h4 e (by simpa using he)
        exact lt_of_lt_of_le hk0 (geOB_some.mp hb.1)
      | succ j =>
        rw [lob_cons] at hklo
        rw [hib_cons] at hkhi
        have hj : j ≤ ks.length := by simpa using hil
        obtain ⟨hleft, hright⟩ := ih h4 hj hklo hkhi
        constructor
        · simp only [List.take_succ_cons]
          intro e he
          rw [toEntriesL_cons] at he
          rcases List.mem_append.mp he with he' | he'
          · have hb := (ordB_entries c lo (some k0) h3).2 e he'
            have hek : e.1 < k0 := ltOB_some.mp hb.2
            have h5 : geOB (some k0) k = true := geOB_of_window h4 hj hklo
            exact lt_of_lt_of_le hek (geOB_some.mp h5)
          · exact hleft e he'
        · simp only [List.drop_succ_cons]
          exact hright

/-- Main lemma for the insert descent/cascade of `BPlusTree.insert`: on a
search-order-correct subtree whose strict descendants satisfy occupancy and
whose own key count is at most `order - 1`, inserting a key lying in the
subtree's window succeeds; the result is search-order correct, its
descendants satisfy occupancy, its key count grows by at most one, its
entry list is the leaf-level `add` of the old entry list, and the leaf
chain is untouched unless exactly one leaf split, whose fresh identity is
threaded in right after the split leaf. -/
theorem insertAux_ok {M : Nat} (hM : 3 ≤ M) (k : Int) (v : β) :
    ∀ (t : BNode β) (ch : Chain) (lo hi : Option Int),
      ordB t lo hi = true → occXB M t = true →
      (∀ ks cs, t = BNode.node ks cs → ks ≠ []) →
      nkeys t ≤ M - 1 →
      geOB lo k = true → ltOB k hi = true →
      ∃ r ch',
        insertAux M k v t ch = some (r, ch') ∧
        ordB r lo hi = true ∧
        occXB M r = true ∧
        (∀ ks cs, r = BNode.node ks cs → ks ≠ []) ∧
        (∀ id es, r = BNode.leaf id es → ∃ es0, t = BNode.leaf id es0) ∧
        nkeys t ≤ nkeys r ∧ nkeys r ≤ nkeys t + 1 ∧
        toEntries r = leafAdd (toEntries t) k v ∧
        ((leafIds r = leafIds t ∧ ch' = ch) ∨
         (∃ sid pre post, leafIds t = pre ++ sid :: post ∧
            leafIds r = pre ++ sid :: ch.counter :: post ∧
            ch' = splitChain ch sid)) := by
  intro t
  induction t using bnode_induction with
  | hleaf id es =>
    intro ch lo hi hord hocc hne hnk hlo hhi
    obtain ⟨hs, -⟩ := ordB_leaf_iff.mp hord
    refine ⟨.leaf id (leafAdd es k v), ch, rfl, ordB_leafAdd hord hlo hhi, rfl,
      ?_, ?_, ?_, ?_, ?_, Or.inl ⟨rfl, rfl⟩⟩
    · intro ks cs h'
      cases h'
    · intro id' es' h'
      cases h'
      exact ⟨es, rfl⟩
    · exact (leafAdd_length_ge hs).1
    · exact (leafAdd_length_ge hs).2
    · rw [toEntries_leaf, toEntries_leaf]
  | hnode ks cs ihc =>
    intro ch lo hi hordt hocc hne hnk hlo hhi
    have hord : internalOrdB ks cs lo hi = true := hordt
    have hksne : ks ≠ [] := hne ks cs rfl
    obtain ⟨i, hfi⟩ := findIndex_isSome hksne k
    have hil := findIndex_le_length hfi
    obtain ⟨c, hci, hcord⟩ := internalOrdB_extract hord hil
    obtain ⟨hklo, hkhi⟩ := findIndex_window hfi hlo hhi
    have hcocc : occB M c = true := by
      rw [occXB] at hocc
      exact occListB_iff.mp hocc c (List.get?_mem hci)
    obtain ⟨hcoccX, hcnk, hcne, hcmin⟩ := occB_parts hcocc
    obtain ⟨c', ch', hcall, hc'ord, hc'occX, hc'ne, hc'shape, hg1, hg2, hc'ent, hc'chain⟩ :=
      ihc c (List.get?_mem hci) ch (lob ks lo i) (hib ks hi i) hcord hcoccX hcne hcnk
        hklo hkhi
    have hdecomp := list_decomp_at hci
    have hAkeys : ∀ e ∈ toEntriesL (cs.take i), e.1 < k :=
      (toEntriesL_window_split hord hil hklo hkhi).1
    have hCkeys : ∀ e ∈ toEntriesL (cs.drop (i + 1)), k < e.1 :=
      (toEntriesL_window_split hord hil hklo hkhi).2
    have hEt : toEntries (BNode.node ks cs) =
        toEntriesL (cs.take i) ++ toEntries c ++ toEntriesL (cs.drop (i + 1)) := by
      rw [toEntries_node]
      conv_lhs => rw [hdecomp]
      rw [toEntriesL_append, toEntriesL_cons, List.append_assoc]
    have hIdt : leafIds (BNode.node ks cs) =
        leafIdsL (cs.take i) ++ leafIds c ++ leafIdsL (cs.drop (i + 1)) := by
      rw [leafIds_node]
      conv_lhs => rw [hdecomp]
      rw [leafIdsL_append, leafIdsL_cons, List.append_assoc]
    have hEadd : leafAdd (toEntries (BNode.node ks cs)) k v =
        toEntriesL (cs.take i) ++ leafAdd (toEntries c) k v ++
          toEntriesL (cs.drop (i + 1)) := by
      rw [hEt, List.append_assoc, leafAdd_append_left hAkeys,
        leafAdd_append_right hCkeys, ← List.append_assoc]
    by_cases hfull : nkeys c' = M
    · -- the updated child has `order` keys: split it and merge up
      obtain ⟨p, l, rr, residue, ch₂, hsp, hlord, hrord, hplo, hphi, hlocc, hrocc,
        hent2, hids2⟩ := splitStep_ok (q := ch') hM hc'ord hc'occX hfull
      have hsorted := (internalOrdB_sep_facts hord).1
      have hpfind : findIndex ks p = some i :=
        findIndex_eq_of_window hil hksne hsorted (gtOB_lob_none hplo)
          (ltOB_hib_none hphi)
      have hvslen : (cs.eraseIdx i).length = ks.length := by
        rw [length_eraseIdx_at hci]
        rw [internalOrdB_length hord]
        omega
      have hscan := mergeUpScan_eq (w := cs.eraseIdx i) (u := [l, rr]) hil hksne
        hvslen hsorted (gtOB_lob_none hplo) (ltOB_hib_none hphi)
      have hmerge : mergeUp ks (cs.set i residue) i (BNode.node [p] [l, rr]) =
          some (ks.take i ++ p :: ks.drop i,
            cs.take i ++ l :: rr :: cs.drop (i + 1)) := by
        rw [mergeUp]
        rw [eraseIdx_set_same (i := i), hscan, eraseIdx_take, eraseIdx_drop,
          List.append_assoc]
        rfl
      have heq : insertAux M k v (BNode.node ks cs) ch =
          some (.node (ks.take i ++ p :: ks.drop i)
            (cs.take i ++ l :: rr :: cs.drop (i + 1)), ch₂) := by
        rw [insertAux_node]
        simp only [hfi, insertChild_eq hci, hcall, hfull, if_pos, hsp, hpfind, hmerge]
      have htkeys : (ks.take i ++ p :: ks.drop i).length = ks.length + 1 := by
        rw [List.length_append, List.length_take, List.length_cons, List.length_drop]
        omega
      refine ⟨.node (ks.take i ++ p :: ks.drop i)
        (cs.take i ++ l :: rr :: cs.drop (i + 1)), ch₂, heq, ?_, ?_, ?_, ?_, ?_, ?_,
        ?_, ?_⟩
      · rw [ordB_node]
        exact internalOrdB_splice hord hil hlord hrord hplo hphi
      · rw [occXB, occListB_iff]
        intro x hx
        rcases List.mem_append.mp hx with hx' | hx'
        · exact occListB_iff.mp hocc x ((List.take_sublist _ _).subset hx')
        · rcases List.mem_cons.mp hx' with rfl | hx''
          · exact hlocc
          · rcases List.mem_cons.mp hx'' with rfl | hx3
            · exact hrocc
            · exact occListB_iff.mp hocc x ((List.drop_sublist _ _).subset hx3)
      · intro ks' cs' h'
        cases h'
        intro h0
        have := congrArg List.length h0
        rw [htkeys] at this
        simp at this
      · intro id' es' h'
        cases h'
      · show nkeys (BNode.node ks cs) ≤ nkeys (BNode.node _ _)
        rw [nkeys, nkeys, htkeys]
        omega
      · show nkeys (BNode.node _ _) ≤ nkeys (BNode.node ks cs) + 1
        rw [nkeys, nkeys, htkeys]
      · rw [toEntries_node, toEntriesL_append, toEntriesL_cons, toEntriesL_cons]
        have hlr : toEntries l ++ toEntries rr = toEntries c' := by
          have h5 := hent2
          rw [toEntriesL_cons, toEntriesL_cons, toEntriesL_nil, List.append_nil] at h5
          exact h5
        rw [hEadd, ← hc'ent, ← hlr]
        simp [List.append_assoc]
      · have hIdr : leafIds (BNode.node
            (ks.take i ++ p :: ks.drop i) (cs.take i ++ l :: rr :: cs.drop (i + 1))) =
            leafIdsL (cs.take i) ++ leafIdsL [l, rr] ++ leafIdsL (cs.drop (i + 1)) := by
          rw [leafIds_node, leafIdsL_append, leafIdsL_cons, leafIdsL_cons]
          rw [leafIdsL_cons, leafIdsL_cons, leafIdsL_nil]
          simp [List.append_assoc]
        rcases hids2 with ⟨hlr, hch2⟩ | ⟨sid2, hc'single, hlr, hch2⟩
        · -- internal split below: identities unchanged at this level
          rcases hc'chain with ⟨hid, hch⟩ | ⟨sid, pre, post, hidc, hidc', hch⟩
          · left
            constructor
            · rw [hIdr, hlr, hid, hIdt]
            · rw [hch2, hch]
          · right
            refine ⟨sid, leafIdsL (cs.take i) ++ pre, post ++ leafIdsL (cs.drop (i + 1)),
              ?_, ?_, by rw [hch2, hch]⟩
            · rw [hIdt, hidc]
              simp [List.append_assoc]
            · rw [hIdr, hlr, hidc']
              simp [List.append_assoc]
        · -- the child itself was a leaf and split here
          rcases hc'chain with ⟨hid, hch⟩ | ⟨sid, pre, post, hidc, hidc', hch⟩
          · right
            refine ⟨sid2, leafIdsL (cs.take i), leafIdsL (cs.drop (i + 1)), ?_, ?_, ?_⟩
            · rw [hIdt, ← hid, hc'single]
              simp
            · rw [hIdr, hlr, hch]
              simp
            · rw [hch2, hch]
          · exfalso
            rw [hidc'] at hc'single
            have := congrArg List.length hc'single
            simp at this
            omega
    · -- no overflow at this level
      have heq : insertAux M k v (BNode.node ks cs) ch =
          some (.node ks (cs.set i c'), ch') := by
        rw [insertAux_node]
        simp only [hfi, insertChild_eq hci, hcall, if_neg hfull]
      refine ⟨.node ks (cs.set i c'), ch', heq, ?_, ?_, ?_, ?_, ?_, ?_, ?_, ?_⟩
      · rw [ordB_node]
        exact internalOrdB_set hord hil hc'ord
      · rw [occXB]
        refine occListB_set (by rw [occXB] at hocc; exact hocc) ?_
        refine occB_build hc'occX (by omega) hc'ne ?_
        intro id' es' h'
        obtain ⟨es0, hc0⟩ := hc'shape id' es' h'
        have h6 : nkeys c = es0.length := by rw [hc0]; rfl
        have h7 : nkeys c' = es'.length := by rw [h']; rfl
        have h8 := hcmin id' es0 hc0
        omega
      · intro ks' cs' h'
        cases h'
        exact hksne
      · intro id' es' h'
        cases h'
      · show nkeys (BNode.node ks cs) ≤ nkeys (BNode.node ks _)
        rw [nkeys, nkeys]
      · show nkeys (BNode.node ks _) ≤ nkeys (BNode.node ks cs) + 1
        rw [nkeys, nkeys]
        omega
      · rw [toEntries_node, set_decomp_at hci, toEntriesL_append, toEntriesL_cons,
          hEadd, hc'ent]
        simp [List.append_assoc]
      · rcases hc'chain with ⟨hid, hch⟩ | ⟨sid, pre, post, hidc, hidc', hch⟩
        · left
          constructor
          · rw [leafIds_node, set_decomp_at hci, leafIdsL_append, leafIdsL_cons,
              hid, hIdt]
            simp [List.append_assoc]
          · exact hch
        · right
          refine ⟨sid, leafIdsL (cs.take i) ++ pre, post ++ leafIdsL (cs.drop (i + 1)),
            ?_, ?_, hch⟩
          · rw [hIdt, hidc]
            simp [List.append_assoc]
          · rw [leafIds_node, set_decomp_at hci, leafIdsL_append, leafIdsL_cons, hidc']
            simp [List.append_assoc]

theorem mlook_mset_same {m : List (Nat × Option Nat)} {i : Nat} {v : Option Nat} :
    mlook (mset m i v) i = v := by
  simp [mlook, mset, List.find?]

theorem mlook_mset_other {m : List (Nat × Option Nat)} {i j : Nat} {v : Option Nat}
    (h : j ≠ i) : mlook (mset m i v) j = mlook m j := by
  simp only [mlook, mset, List.find?]
  have : (i == j) = false := by
    rw [beq_eq_false_iff_ne]
    exact fun h' => h h'.symm
  rw [this]

theorem linksOkB_tail {nx : List (Nat × Option Nat)} {l : List Nat} {a : Nat}
    (h : linksOkB nx (a :: l) = true) : linksOkB nx l = true := by
  cases l with
  | nil => rfl
  | cons b l' =>
    rw [linksOkB, Bool.and_eq_true] at h
    exact h.2

theorem linksOkB_mset_notin {nx : List (Nat × Option Nat)} {l : List Nat}
    {i : Nat} {v : Option Nat} (h : linksOkB nx l = true) (hi : i ∉ l) :
    linksOkB (mset nx i v) l = true := by
  induction l with
  | nil => rfl
  | cons a l ih =>
    have hai : a ≠ i := fun h' => hi (by rw [← h']; exact List.mem_cons_self _ _)
    cases l with
    | nil =>
      rw [linksOkB] at h ⊢
      rw [mlook_mset_other hai]
      exact h
    | cons b l' =>
      rw [linksOkB, Bool.and_eq_true] at h ⊢
      refine ⟨?_, ih h.2 (fun h' => hi (List.mem_cons_of_mem _ h'))⟩
      rw [mlook_mset_other hai]
      exact h.1

theorem linksOkB_insert {nx : List (Nat × Option Nat)} {pre post : List Nat}
    {sid nid : Nat} (h : linksOkB nx (pre ++ sid :: post) = true)
    (hnid : nid ∉ pre ++ sid :: post)
    (hnodup : (pre ++ sid :: post).Nodup) :
    linksOkB (mset (mset nx nid (mlook nx sid)) sid (some nid))
      (pre ++ sid :: nid :: post) = true := by
  induction pre with
  | nil =>
    simp only [List.nil_append] at h hnid hnodup ⊢
    have hsn : sid ≠ nid := fun h' => hnid (by simp [h'])
    cases post with
    | nil =>
      rw [linksOkB] at h
      rw [linksOkB, Bool.and_eq_true]
      refine ⟨by rw [mlook_mset_same]; simp, ?_⟩
      rw [linksOkB, mlook_mset_other hsn.symm, mlook_mset_same]
      simpa using h
    | cons b post' =>
      rw [linksOkB, Bool.and_eq_true] at h
      obtain ⟨h1, h2⟩ := h
      rw [linksOkB, Bool.and_eq_true]
      refine ⟨by rw [mlook_mset_same]; simp, ?_⟩
      rw [linksOkB, Bool.and_eq_true]
      refine ⟨by rw [mlook_mset_other hsn.symm, mlook_mset_same]; simpa using h1, ?_⟩
      have hbpost : sid ∉ b :: post' := (List.nodup_cons.mp hnodup).1
      have hnpost : nid ∉ b :: post' := fun h' => hnid (List.mem_cons_of_mem _ h')
      exact linksOkB_mset_notin (linksOkB_mset_notin h2 hnpost) hbpost
  | cons a pre' ih =>
    have hanid : a ≠ nid := fun h' => hnid (by simp [h'])
    have hasid : a ≠ sid := by
      rw [List.cons_append, List.nodup_cons] at hnodup
      exact fun h' => hnodup.1
        (by rw [h']; exact List.mem_append_right _ (List.mem_cons_self _ _))
    rw [List.cons_append] at h hnid hnodup ⊢
    have hh : linksOkB nx (pre' ++ sid :: post) = true := linksOkB_tail h
    have hrec := ih hh (fun h' => hnid (List.mem_cons_of_mem _ h'))
      (List.nodup_cons.mp hnodup).2
    cases pre' with
    | nil =>
      rw [List.nil_append] at hrec h ⊢
      rw [linksOkB, Bool.and_eq_true] at h
      rw [linksOkB, Bool.and_eq_true]
      exact ⟨by rw [mlook_mset_other hasid, mlook_mset_other hanid]; exact h.1, hrec⟩
    | cons a2 pre2 =>
      rw [List.cons_append] at hrec h ⊢
      rw [linksOkB, Bool.and_eq_true] at h
      rw [linksOkB, Bool.and_eq_true]
      exact ⟨by rw [mlook_mset_other hasid, mlook_mset_other hanid]; exact h.1, hrec⟩

theorem nodup_insert_middle {pre post : List Nat} {sid nid : Nat}
    (h : (pre ++ sid :: post).Nodup) (hnid : nid ∉ pre ++ sid :: post) :
    (pre ++ sid :: nid :: post).Nodup := by
  induction pre with
  | nil =>
    simp only [List.nil_append, List.nodup_cons] at h ⊢
    simp only [List.nil_append, List.mem_cons] at hnid
    refine ⟨?_, ?_, h.2⟩
    · simp only [List.mem_cons]
      rintro (rfl | h')
      · exact hnid (Or.inl rfl)
      · exact h.1 h'
    · exact fun h' => hnid (Or.inr h')
  | cons a pre' ih =>
    rw [List.cons_append, List.nodup_cons] at h ⊢
    refine ⟨?_, ih h.2 (fun h' => hnid (by simp [h']))⟩
    intro h'
    rcases List.mem_append.mp h' with h2 | h2
    · exact h.1 (List.mem_append_left _ h2)
    · rcases List.mem_cons.mp h2 with rfl | h3
      · exact h.1 (List.mem_append_right _ (List.mem_cons_self _ _))
      · rcases List.mem_cons.mp h3 with rfl | h4
        · exact hnid (by simp)
        · exact h.1 (List.mem_append_right _ (List.mem_cons_of_mem _ h4))

/-- Well-formedness of the chain state follows the per-insert outcome: either
nothing changed, or one fresh identity was threaded in after the split
leaf. -/
theorem wfchain_step {ch ch' : Chain} {ids ids' : List Nat}
    (hw : linksOkB ch.nextMap ids = true) (hnd : ids.Nodup)
    (hfr : ∀ id ∈ ids, id < ch.counter)
    (hout : (ids' = ids ∧ ch' = ch) ∨
      (∃ sid pre post, ids = pre ++ sid :: post ∧
        ids' = pre ++ sid :: ch.counter :: post ∧ ch' = splitChain ch sid)) :
    linksOkB ch'.nextMap ids' = true ∧ ids'.Nodup ∧
      ∀ id ∈ ids', id < ch'.counter := by
  rcases hout with ⟨rfl, rfl⟩ | ⟨sid, pre, post, hids, hids', hch⟩
  · exact ⟨hw, hnd, hfr⟩
  · subst hids
    subst hids'
    subst hch
    have hnin : ch.counter ∉ pre ++ sid :: post := by
      intro h'
      exact absurd (hfr _ h') (lt_irrefl _)
    refine ⟨?_, nodup_insert_middle hnd hnin, ?_⟩
    · exact linksOkB_insert hw hnin hnd
    · intro id hid
      show id < ch.counter + 1
      rcases List.mem_append.mp hid with h2 | h2
      · have := hfr id (List.mem_append_left _ h2)
        omega
      · rcases List.mem_cons.mp h2 with rfl | h3
        · have := hfr id (List.mem_append_right _ (List.mem_cons_self _ _))
          omega
        · rcases List.mem_cons.mp h3 with rfl | h4
          · omega
          · have := hfr id (List.mem_append_right _ (List.mem_cons_of_mem _ h4))
            omega

theorem occRootB_build {M : Nat} {r : BNode β} (h1 : occXB M r = true)
    (h2 : nkeys r ≤ M - 1) (h3 : ∀ ks cs, r = BNode.node ks cs → ks ≠ []) :
    occRootB M r = true := by
  cases r with
  | leaf id es =>
    rw [occRootB]
    simpa using h2
  | node ks cs =>
    rw [occRootB]
    simp only [Bool.and_eq_true, decide_eq_true_iff]
    have hne := h3 ks cs rfl
    exact ⟨⟨by cases ks <;> simp_all, h2⟩, h1⟩

theorem occRootB_parts {M : Nat} {r : BNode β} (h : occRootB M r = true) :
    occXB M r = true ∧ nkeys r ≤ M - 1 ∧
      (∀ ks cs, r = BNode.node ks cs → ks ≠ []) := by
  cases r with
  | leaf id es =>
    rw [occRootB] at h
    simp only [decide_eq_true_iff] at h
    exact ⟨rfl, h, by intro _ _ h'; cases h'⟩
  | node ks cs =>
    rw [occRootB] at h
    simp only [Bool.and_eq_true, decide_eq_true_iff] at h
    obtain ⟨⟨hge, hle⟩, hlist⟩ := h
    refine ⟨hlist, hle, ?_⟩
    intro ks' cs' h'
    cases h'
    intro h0
    subst h0
    simp at hge

/-- `BPlusTree.insert` at tree level succeeds on a well-formed tree of order
at least 3, preserves well-formedness and performs the leaf-level `add` on
the tree's entry sequence. -/
theorem insertT_ok {t : Tree β} (hM : 3 ≤ t.order) (hwf : WFTree t)
    (k : Int) (v : β) :
    ∃ t', insertT t k v = some t' ∧ WFTree t' ∧ t'.order = t.order ∧
      toEntries t'.root = leafAdd (toEntries t.root) k v := by
  obtain ⟨hord, hocc, hlk, hnd, hfr⟩ := hwf
  obtain ⟨hoccX, hnk, hne⟩ := occRootB_parts hocc
  obtain ⟨r, ch', heq, hrord, hroccX, hrne, -, hg1, hg2, hrent, hrchain⟩ :=
    insertAux_ok hM k v t.root t.chain none none hord hoccX hne hnk rfl rfl
  by_cases hfull : nkeys r = t.order
  · obtain ⟨p, l, rr, residue, ch₂, hsp, hlord, hrrord, hplo, hphi, hlocc, hrocc,
      hent2, hids2⟩ := splitStep_ok (q := ch') hM hrord hroccX hfull
    have hne1 : ¬ nkeys (BNode.node [p] [l, rr]) = t.order := by
      rw [nkeys]
      simp only [List.length_cons, List.length_nil]
      omega
    refine ⟨{ t with root := .node [p] [l, rr], chain := ch₂ }, ?_, ?_, rfl, ?_⟩
    · rw [insertT]
      simp only [heq, hfull, if_pos, hsp, if_neg hne1]
    · refine ⟨?_, ?_, ?_⟩
      · rw [ordB_node, internalOrdB_cons]
        simp only [Bool.and_eq_true]
        refine ⟨⟨⟨rfl, rfl⟩, hlord⟩, ?_⟩
        simpa [internalOrdB] using hrrord
      · show occRootB t.order (BNode.node [p] [l, rr]) = true
        rw [occRootB]
        simp only [Bool.and_eq_true, decide_eq_true_iff]
        refine ⟨⟨by simp, by simp; omega⟩, ?_⟩
        rw [occListB, occListB, occListB]
        simp [hlocc, hrocc]
      · have hcomp : (leafIds (BNode.node [p] [l, rr]) = leafIds t.root ∧ ch₂ = t.chain) ∨
            (∃ sid pre post, leafIds t.root = pre ++ sid :: post ∧
              leafIds (BNode.node [p] [l, rr]) =
                pre ++ sid :: t.chain.counter :: post ∧
              ch₂ = splitChain t.chain sid) := by
          rw [leafIds_node]
          rcases hids2 with ⟨hlr, hch2⟩ | ⟨sid2, hsingle, hlr, hch2⟩
          · rcases hrchain with ⟨hid, hch⟩ | ⟨sid, pre, post, hidc, hidc', hch⟩
            · exact Or.inl ⟨by rw [hlr, hid], by rw [hch2, hch]⟩
            · exact Or.inr ⟨sid, pre, post, hidc, by rw [hlr, hidc'], by rw [hch2, hch]⟩
          · rcases hrchain with ⟨hid, hch⟩ | ⟨sid, pre, post, hidc, hidc', hch⟩
            · refine Or.inr ⟨sid2, [], [], by rw [← hid, hsingle]; simp, ?_, ?_⟩
              · rw [hlr, hch]
                rfl
              · rw [hch2, hch]
            · exfalso
              rw [hidc'] at hsingle
              have := congrArg List.length hsingle
              simp at this
              omega
        obtain ⟨hl1, hl2, hl3⟩ := wfchain_step hlk hnd hfr hcomp
        exact ⟨hl1, hl2, hl3⟩
    · show toEntries (BNode.node [p] [l, rr]) = _
      rw [toEntries_node, hent2, hrent]
  · refine ⟨{ t with root := r, chain := ch' }, ?_, ?_, rfl, hrent⟩
    · rw [insertT]
      simp only [heq, if_neg hfull]
    · refine ⟨hrord, ?_, ?_⟩
      · exact occRootB_build hroccX (show nkeys r ≤ t.order - 1 by omega) hrne
      · obtain ⟨hl1, hl2, hl3⟩ := wfchain_step hlk hnd hfr hrchain
        exact ⟨hl1, hl2, hl3⟩

theorem newTree_wf (β : Type) (M : Nat) : WFTree (newTree β M) := by
  refine ⟨rfl, ?_, rfl, ?_, ?_⟩
  · show occRootB M (BNode.leaf 0 []) = true
    rw [occRootB]
    simp
  · show (leafIds (BNode.leaf 0 ([] : List (Entry β)))).Nodup
    rw [leafIds_leaf]
    simp
  · intro id hid
    have hid' : id ∈ leafIds (BNode.leaf 0 ([] : List (Entry β))) := hid
    rw [leafIds_leaf] at hid'
    simp at hid'
    subst hid'
    show 0 < 1
    omega

/-- Every reachable tree is well-formed and its entries are the fold of the
leaf-level `add` over the inserted pairs. -/
theorem runInserts_wf {t : Tree β} (hM : 3 ≤ t.order) (hwf : WFTree t)
    (ops : List (Int × β)) :
    ∃ t', runInserts t ops = some t' ∧ WFTree t' ∧ t'.order = t.order ∧
      toEntries t'.root =
        ops.foldl (fun es p => leafAdd es p.1 p.2) (toEntries t.root) := by
  induction ops generalizing t with
  | nil => exact ⟨t, rfl, hwf, rfl, rfl⟩
  | cons op rest ih =>
    obtain ⟨k, v⟩ := op
    obtain ⟨t1, he1, hwf1, hord1, hent1⟩ := insertT_ok hM hwf k v
    obtain ⟨t', he', hwf', hord', hent'⟩ := ih (t := t1) (by rw [hord1]; exact hM) hwf1
    refine ⟨t', ?_, hwf', by rw [hord', hord1], ?_⟩
    · rw [runInserts_cons rest he1]
      exact he'
    · rw [hent', hent1]
      rfl

theorem retrieveChild_eq {k : Int} {cs : List (BNode β)} {i : Nat}
    {c : BNode β} (h : cs.get? i = some c) :
    retrieveChild k cs i = retrieveAux k c := by
  induction cs generalizing i with
  | nil => simp [List.get?] at h
  | cons c0 cs' ih =>
    cases i with
    | zero =>
      have : c0 = c := by simpa [List.get?] using h
      subst this
      rfl
    | succ j =>
      have h' : cs'.get? j = some c := h
      rw [retrieveChild, ih h']

theorem retrieveAux_node {k : Int} {ks : List Int} {cs : List (BNode β)} :
    retrieveAux k (.node ks cs : BNode β) =
      (match findIndex ks k with
      | none => none
      | some i => retrieveChild k cs i) := rfl

theorem leafLookup_append_none_right {B C : List (Entry β)} {k : Int}
    (hC : ∀ c ∈ C, c.1 ≠ k) : leafLookup (B ++ C) k = leafLookup B k := by
  induction B with
  | nil => rw [List.nil_append, leafLookup_eq_none hC]; rfl
  | cons e B' ih =>
    obtain ⟨ik, b⟩ := e
    rw [List.cons_append, leafLookup, leafLookup]
    by_cases hk : k = ik
    · rw [if_pos hk, if_pos hk]
    · rw [if_neg hk, if_neg hk, ih]

theorem leafLookup_append_or {A rest : List (Entry β)} {k : Int} :
    leafLookup (A ++ rest) k =
      (match leafLookup A k with
      | some b => some b
      | none => leafLookup rest k) := by
  induction A with
  | nil => rfl
  | cons a A ih =>
    obtain ⟨ik, b⟩ := a
    rw [List.cons_append, leafLookup, leafLookup]
    by_cases hk : k = ik
    · rw [if_pos hk, if_pos hk]
    · rw [if_neg hk, if_neg hk, ih]

/-- Descending with `_find` on a search-order-correct subtree whose internal
nodes are non-empty reaches the unique leaf whose window contains the key, so
`retrieve` computes the leaf scan of the subtree's whole entry sequence. -/
theorem retrieveAux_ok {M : Nat} (k : Int) :
    ∀ (t : BNode β) (lo hi : Option Int),
      ordB t lo hi = true → occXB M t = true →
      (∀ ks cs, t = BNode.node ks cs → ks ≠ []) →
      geOB lo k = true → ltOB k hi = true →
      retrieveAux k t = some (leafLookup (toEntries t) k) := by
  intro t
  induction t using bnode_induction with
  | hleaf id es =>
    intro lo hi _ _ _ _ _
    rw [toEntries_leaf]
    rfl
  | hnode ks cs ihc =>
    intro lo hi hordt hocc hne hlo hhi
    have hord : internalOrdB ks cs lo hi = true := hordt
    have hksne : ks ≠ [] := hne ks cs rfl
    obtain ⟨i, hfi⟩ := findIndex_isSome hksne k
    have hil := findIndex_le_length hfi
    obtain ⟨c, hci, hcord⟩ := internalOrdB_extract hord hil
    obtain ⟨hklo, hkhi⟩ := findIndex_window hfi hlo hhi
    have hcocc : occB M c = true := by
      rw [occXB] at hocc
      exact occListB_iff.mp hocc c (List.get?_mem hci)
    obtain ⟨hcoccX, -, hcne, -⟩ := occB_parts hcocc
    have hrec := ihc c (List.get?_mem hci) (lob ks lo i) (hib ks hi i) hcord
      hcoccX hcne hklo hkhi
    have hA' : ∀ a ∈ toEntriesL (cs.take i), a.1 ≠ k :=
      fun a ha => ne_of_lt ((toEntriesL_window_split hord hil hklo hkhi).1 a ha)
    have hC' : ∀ x ∈ toEntriesL (cs.drop (i + 1)), x.1 ≠ k :=
      fun x hx => ne_of_gt ((toEntriesL_window_split hord hil hklo hkhi).2 x hx)
    have hdecomp := list_decomp_at hci
    have hEt : toEntries (BNode.node ks cs) =
        toEntriesL (cs.take i) ++
          (toEntries c ++ toEntriesL (cs.drop (i + 1))) := by
      rw [toEntries_node]
      conv_lhs => rw [hdecomp]
      rw [toEntriesL_append, toEntriesL_cons]
    rw [retrieveAux_node]
    simp only [hfi]
    rw [retrieveChild_eq hci, hrec, hEt, leafLookup_append hA',
      leafLookup_append_none_right hC']

/-- `BPlusTree.retrieve` on a well-formed tree computes the leaf scan of the
tree's entry sequence. -/
theorem retrieveT_ok {t : Tree β} (hwf : WFTree t) (k : Int) :
    retrieveT t k = some (leafLookup (toEntries t.root) k) := by
  obtain ⟨hord, hocc, -, -, -⟩ := hwf
  obtain ⟨hoccX, -, hne⟩ := occRootB_parts hocc
  exact retrieveAux_ok (M := t.order) k t.root none none hord hoccX hne rfl rfl

/-- `LeafNode.add` keeps the key list of a leaf strictly sorted. -/
theorem leafAdd_sorted {es : List (Entry β)} {k : Int} {v : β}
    (hs : List.Pairwise (· < ·) (es.map Prod.fst)) :
    List.Pairwise (· < ·) ((leafAdd es k v).map Prod.fst) := by
  have h0 : ordB (BNode.leaf 0 es) none none = true :=
    ordB_leaf_iff.mpr ⟨hs, fun e _ => ⟨rfl, rfl⟩⟩
  have h1 := ordB_leafAdd (k := k) (v := v) h0 rfl rfl
  exact (ordB_leaf_iff.mp h1).1

/-- Adding under `k` makes the bucket at `k` end with the new value. -/
theorem leafLookup_leafAdd_self {es : List (Entry β)} {k : Int} {v : β}
    (hs : List.Pairwise (· < ·) (es.map Prod.fst)) :
    leafLookup (leafAdd es k v) k =
      some ((leafLookup es k).getD [] ++ [v]) := by
  rcases leafAdd_split (k := k) (v := v) hs with
    ⟨b, A, B, hes, hA, hB, hadd⟩ | ⟨-, A, B, hes, hA, hB, hadd⟩
  · have hA' : ∀ a ∈ A, a.1 ≠ k := fun a ha => ne_of_lt (hA a ha)
    rw [hadd, leafLookup_append hA', leafLookup, if_pos rfl]
    rw [hes, leafLookup_append hA', leafLookup, if_pos rfl]
    rfl
  · have hA' : ∀ a ∈ A, a.1 ≠ k := fun a ha => ne_of_lt (hA a ha)
    have hB' : ∀ x ∈ B, x.1 ≠ k := fun x hx => ne_of_gt (hB x hx)
    rw [hadd, leafLookup_append hA', leafLookup, if_pos rfl]
    rw [hes, leafLookup_append hA', leafLookup_eq_none hB']
    rfl

/-- Adding under `k` leaves every other bucket untouched. -/
theorem leafLookup_leafAdd_other {es : List (Entry β)} {k q : Int} {v : β}
    (hs : List.Pairwise (· < ·) (es.map Prod.fst)) (hq : q ≠ k) :
    leafLookup (leafAdd es k v) q = leafLookup es q := by
  rcases leafAdd_split (k := k) (v := v) hs with
    ⟨b, A, B, hes, hA, hB, hadd⟩ | ⟨-, A, B, hes, hA, hB, hadd⟩
  · rw [hadd, hes, leafLookup_append_or, leafLookup_append_or]
    cases hl : leafLookup A q with
    | some b0 => rfl
    | none =>
      rw [leafLookup, leafLookup, if_neg hq, if_neg hq]
  · rw [hadd, hes, leafLookup_append_or, leafLookup_append_or]
    cases hl : leafLookup A q with
    | some b0 => rfl
    | none =>
      rw [leafLookup, if_neg hq]

/-- Folding a history of adds over a sorted leaf sequence accumulates, for
every key, exactly the values inserted under it in order. -/
theorem leafLookup_foldl {k : Int} :
    ∀ (ops : List (Int × β)) (es : List (Entry β)),
      List.Pairwise (· < ·) (es.map Prod.fst) →
      leafLookup (ops.foldl (fun es p => leafAdd es p.1 p.2) es) k =
        (if (bucketOf ops k).isEmpty then leafLookup es k
         else some ((leafLookup es k).getD [] ++ bucketOf ops k)) := by
  intro ops
  induction ops with
  | nil =>
    intro es _
    rfl
  | cons op rest ih =>
    intro es hs
    obtain ⟨k0, v0⟩ := op
    rw [List.foldl_cons]
    rw [ih (leafAdd es k0 v0) (leafAdd_sorted hs)]
    by_cases hk : k0 = k
    · subst hk
      have hb : bucketOf ((k0, v0) :: rest) k0 = v0 :: bucketOf rest k0 := by
        simp [bucketOf, List.filter_cons]
      rw [hb, leafLookup_leafAdd_self hs,
        if_neg (show ¬((v0 :: bucketOf rest k0).isEmpty = true) by simp)]
      by_cases hre : (bucketOf rest k0).isEmpty
      · rw [if_pos hre, List.isEmpty_iff.mp hre]
      · rw [if_neg hre, Option.getD_some, List.append_assoc]
        rfl
    · have hb : bucketOf ((k0, v0) :: rest) k = bucketOf rest k := by
        simp [bucketOf, List.filter_cons, hk]
      rw [hb, leafLookup_leafAdd_other hs fun h => hk h.symm]

/-- C1: for every sequence of `insert(key, value)` calls starting from a
freshly constructed tree (of order at least 3), every insert succeeds and
`retrieve(key)` returns the bucket containing exactly the values inserted
under that key, in insertion order; for every key never inserted it returns
the absent signal (`None`). -/
theorem C1_insert_retrieve {M : Nat} (hM : 3 ≤ M)
    (ops : List (Int × β)) (k : Int) :
    ∃ t, runInserts (newTree β M) ops = some t ∧
      retrieveT t k =
        some (if (bucketOf ops k).isEmpty then none
          else some (bucketOf ops k)) := by
  obtain ⟨t, he, hwf, -, hent⟩ :=
    runInserts_wf (t := newTree β M) hM (newTree_wf β M) ops
  refine ⟨t, he, ?_⟩
  rw [retrieveT_ok hwf k, hent]
  have h0 : toEntries (newTree β M).root = [] := rfl
  rw [h0, leafLookup_foldl ops [] (by simp)]
  by_cases hb : (bucketOf ops k).isEmpty
  · rw [if_pos hb, if_pos hb]
    rfl
  · rw [if_neg hb, if_neg hb]
    rfl

theorem C1_insert_retrieve_witness :
    3 ≤ 3 ∧ ∃ t, runInserts (newTree Int 3) [(2, 5)] = some t ∧
      retrieveT t 2 =
        some (if (bucketOf [((2 : Int), (5 : Int))] 2).isEmpty then none
          else some (bucketOf [((2 : Int), (5 : Int))] 2)) :=
  ⟨by decide, C1_insert_retrieve (by decide) [(2, 5)] 2⟩

/-- `getLeftmostLeaf`'s descent on a search-order-correct tree reaches the
first leaf of the left-to-right leaf sequence. -/
theorem descendFirst_ok :
    ∀ (t : BNode β) (lo hi : Option Int), ordB t lo hi = true →
      ∃ id es rest, descendFirst t = some (BNode.leaf id es) ∧
        leafRecs t = (id, es) :: rest := by
  intro t
  induction t using bnode_induction with
  | hleaf id es =>
    intro lo hi _
    exact ⟨id, es, [], rfl, rfl⟩
  | hnode ks cs ihc =>
    intro lo hi hordt
    have hord : internalOrdB ks cs lo hi = true := hordt
    cases ks with
    | nil =>
      obtain ⟨c, rfl, hc⟩ := internalOrdB_nil_iff.mp hord
      obtain ⟨id, es, rest, h1, h2⟩ := ihc c (by simp) lo hi hc
      refine ⟨id, es, rest, h1, ?_⟩
      simp [leafRecs, leafRecsL, h2]
    | cons k0 ks' =>
      cases cs with
      | nil => simp [internalOrdB] at hord
      | cons c cs' =>
        rw [internalOrdB_cons] at hord
        simp only [Bool.and_eq_true] at hord
        obtain ⟨⟨⟨-, -⟩, h3⟩, h4⟩ := hord
        obtain ⟨id, es, rest, h1, h2⟩ := ihc c (by simp) lo (some k0) h3
        refine ⟨id, es, rest ++ leafRecsL cs', h1, ?_⟩
        simp [leafRecs, leafRecsL, h2]

theorem lookup_append_head {recs1 rest : List (Nat × List (Entry β))}
    {id : Nat} {es : List (Entry β)} (h1 : id ∉ recs1.map Prod.fst) :
    (recs1 ++ (id, es) :: rest).lookup id = some es := by
  induction recs1 with
  | nil => simp [List.lookup]
  | cons a recs ih =>
    obtain ⟨aid, aes⟩ := a
    have hne : id ≠ aid := by
      intro h
      exact h1 (by simp [h])
    rw [List.cons_append]
    simp only [List.lookup]
    rw [show (id == aid) = false from beq_eq_false_iff_ne.mpr hne]
    exact ih fun hm => h1 (by simp [hm])

theorem linksOkB_suffix {nx : List (Nat × Option Nat)} :
    ∀ (A l : List Nat), linksOkB nx (A ++ l) = true →
      linksOkB nx l = true := by
  intro A
  induction A with
  | nil => intro l h; exact h
  | cons a A ih =>
    intro l h
    rw [List.cons_append] at h
    exact ih l (linksOkB_tail h)

/-- Following `nextLeaf` pointers that thread the distinct leaf identities in
order, starting anywhere in the leaf sequence, collects exactly the keys of
the remaining leaves. -/
theorem walkChainKeys_ok {root : BNode β} {nx : List (Nat × Option Nat)}
    (hnd : (leafIds root).Nodup) (hlk : linksOkB nx (leafIds root) = true) :
    ∀ (recs2 recs1 : List (Nat × List (Entry β))) (fuel : Nat)
      (id : Nat) (es : List (Entry β)) (rest : List (Nat × List (Entry β))),
      leafRecs root = recs1 ++ recs2 → recs2 = (id, es) :: rest →
      recs2.length ≤ fuel →
      walkChainKeys root nx fuel id =
        some (((recs2.map Prod.snd).flatten).map Prod.fst) := by
  intro recs2
  induction recs2 with
  | nil =>
    intro recs1 fuel id es rest hsplit hcons hfuel
    simp at hcons
  | cons hd tl ih =>
    intro recs1 fuel id es rest hsplit hcons hfuel
    injection hcons with hc1 hc2
    subst hc1
    subst hc2
    cases fuel with
    | zero => simp at hfuel
    | succ f =>
      have hids : leafIds root = recs1.map Prod.fst ++ id :: tl.map Prod.fst := by
        rw [leafIds, hsplit]
        simp
      have hnd' := hnd
      rw [hids] at hnd'
      have hnotin : id ∉ recs1.map Prod.fst := by
        intro hmem
        rw [List.nodup_append] at hnd'
        exact hnd'.2.2 hmem (List.mem_cons_self _ _)
      have hlook : (leafRecs root).lookup id = some es := by
        rw [hsplit]
        exact lookup_append_head hnotin
      have hsuf : linksOkB nx (id :: tl.map Prod.fst) = true := by
        have h' := hlk
        rw [hids] at h'
        exact linksOkB_suffix (recs1.map Prod.fst) _ h'
      rw [walkChainKeys]
      cases tl with
      | nil =>
        simp only [List.map_nil] at hsuf
        rw [linksOkB] at hsuf
        have hm : mlook nx id = none := by simpa using hsuf
        simp only [hlook, hm]
        simp
      | cons hd2 tl' =>
        obtain ⟨id2, es2⟩ := hd2
        rw [List.map_cons, linksOkB, Bool.and_eq_true] at hsuf
        have hm : mlook nx id = some id2 := by simpa using hsuf.1
        have hrec := ih (recs1 ++ [(id, es)]) f id2 es2 tl'
          (by rw [hsplit]; simp) rfl (by simpa using hfuel)
        simp only [hlook, hm, hrec]
        simp

/-- The leaf-chain traversal of a well-formed tree succeeds and produces the
tree's whole key sequence in leaf order. -/
theorem chainKeysT_ok {t : Tree β} (hwf : WFTree t) :
    chainKeysT t = some (leafKeys t.root) := by
  obtain ⟨hord, hocc, hlk, hnd, hfr⟩ := hwf
  obtain ⟨id, es, rest, hdf, hlr⟩ := descendFirst_ok t.root none none hord
  have hlen : (leafRecs t.root).length ≤ t.chain.counter := by
    have h1 : (leafIds t.root).toFinset ⊆ Finset.range t.chain.counter := by
      intro x hx
      rw [List.mem_toFinset] at hx
      exact Finset.mem_range.mpr (hfr x hx)
    have h2 := Finset.card_le_card h1
    rw [List.toFinset_card_of_nodup hnd, Finset.card_range] at h2
    have h3 : (leafIds t.root).length = (leafRecs t.root).length := by
      rw [leafIds, List.length_map]
    omega
  have hwalk := walkChainKeys_ok hnd hlk (leafRecs t.root) []
    (t.chain.counter + 1) id es rest (by simp) hlr (by omega)
  rw [chainKeysT, hdf]
  exact hwalk

theorem leafSizes_node {ks : List Int} :
    ∀ (cs : List (BNode β)),
      leafSizes (BNode.node ks cs) = (cs.map leafSizes).flatten := by
  intro cs
  induction cs with
  | nil => rfl
  | cons c cs' ih =>
    have hdec : leafSizes (BNode.node ks (c :: cs')) =
        leafSizes c ++ leafSizes (BNode.node ks cs') := by
      simp [leafSizes, leafRecs, leafRecsL]
    rw [hdec, ih]
    simp

/-- A non-root subtree satisfying occupancy has every leaf's key count
between `M / 2` and `M - 1`. -/
theorem occB_leafSizes {M : Nat} :
    ∀ (c : BNode β), occB M c = true →
      ∀ s ∈ leafSizes c, M / 2 ≤ s ∧ s ≤ M - 1 := by
  intro c
  induction c using bnode_induction with
  | hleaf id es =>
    intro h s hs
    rw [occB, Bool.and_eq_true, decide_eq_true_iff, decide_eq_true_iff] at h
    have hse : s = es.length := by simpa [leafSizes, leafRecs] using hs
    omega
  | hnode ks cs ihc =>
    intro h s hs
    rw [occB, Bool.and_eq_true] at h
    rw [leafSizes_node] at hs
    obtain ⟨l, hl, hsl⟩ := List.mem_flatten.mp hs
    obtain ⟨c, hc, rfl⟩ := List.mem_map.mp hl
    exact ihc c hc (occListB_iff.mp h.2 c hc) s hsl

/-- Below an internal root satisfying root occupancy, every leaf's key count
lies between `M / 2` and `M - 1`. -/
theorem occRootB_leafSizes {M : Nat} {ks : List Int} {cs : List (BNode β)}
    (h : occRootB M (BNode.node ks cs) = true) :
    ∀ s ∈ leafSizes (BNode.node ks cs), M / 2 ≤ s ∧ s ≤ M - 1 := by
  rw [occRootB, Bool.and_eq_true] at h
  intro s hs
  rw [leafSizes_node] at hs
  obtain ⟨l, hl, hsl⟩ := List.mem_flatten.mp hs
  obtain ⟨c, hc, rfl⟩ := List.mem_map.mp hl
  exact occB_leafSizes c (occListB_iff.mp h.2 c hc) s hsl

/-- C2: after any sequence of inserts on a fresh tree of order `M ≥ 3`, the
leaf-chain traversal from the leftmost leaf via `nextLeaf` succeeds and
yields all keys of the tree, in strictly ascending order with no key
appearing twice (hence in no two leaves), and whenever the root is internal
(so no leaf is the root) every leaf holds between `⌊M/2⌋ - 1` and `M - 1`
keys. -/
theorem C2_leaf_chain_invariants {M : Nat} (hM : 3 ≤ M)
    (ops : List (Int × β)) :
    ∃ t, runInserts (newTree β M) ops = some t ∧
      chainKeysT t = some (leafKeys t.root) ∧
      strictSortedB (leafKeys t.root) = true ∧
      (leafKeys t.root).Nodup ∧
      (∀ ks cs, t.root = BNode.node ks cs →
        ∀ s ∈ leafSizes t.root, M / 2 - 1 ≤ s ∧ s ≤ M - 1) := by
  obtain ⟨t, he, hwf, hordM, -⟩ :=
    runInserts_wf (t := newTree β M) hM (newTree_wf β M) ops
  have hp : List.Pairwise (· < ·) ((toEntries t.root).map Prod.fst) :=
    (ordB_entries t.root none none hwf.1).1
  refine ⟨t, he, chainKeysT_ok hwf, ?_, ?_, ?_⟩
  · rw [strictSortedB_iff]
    exact hp
  · exact List.Pairwise.imp (fun h => ne_of_lt h) hp
  · intro ks cs hroot s hs
    have hocc := hwf.2.1
    have hMo : t.order = M := hordM
    rw [hMo] at hocc
    rw [hroot] at hocc hs
    have hb := occRootB_leafSizes hocc s hs
    omega

theorem C2_leaf_chain_invariants_witness :
    3 ≤ 3 ∧ ∃ t, runInserts (newTree Int 3) [(1, 2)] = some t ∧
      chainKeysT t = some (leafKeys t.root) ∧
      strictSortedB (leafKeys t.root) = true ∧
      (leafKeys t.root).Nodup ∧
      (∀ ks cs, t.root = BNode.node ks cs →
        ∀ s ∈ leafSizes t.root, 3 / 2 - 1 ≤ s ∧ s ≤ 3 - 1) :=
  ⟨by decide, C2_leaf_chain_invariants (by decide) [(1, 2)]⟩

theorem skelL_set {cs : List (BNode β)} :
    ∀ {i : Nat} {c r : BNode β}, cs.get? i = some c → skel r = skel c →
      skelL (cs.set i r) = skelL cs := by
  induction cs with
  | nil =>
    intro i c r h _
    simp [List.get?] at h
  | cons c0 cs' ih =>
    intro i c r h hsk
    cases i with
    | zero =>
      have hc : c0 = c := by simpa [List.get?] using h
      subst hc
      rw [List.set, skelL, skelL, hsk]
    | succ j =>
      rw [List.set, skelL, skelL, ih h hsk]

/-- Inserting a key already present in a search-order-correct subtree whose
window contains it succeeds with no structural change: same skeleton, same
key count everywhere, untouched chain; only the key's bucket grows. -/
theorem insertAux_mem {M : Nat} (hM : 3 ≤ M) (k : Int) (v : β) :
    ∀ (t : BNode β) (ch : Chain) (lo hi : Option Int),
      ordB t lo hi = true → occXB M t = true →
      (∀ ks cs, t = BNode.node ks cs → ks ≠ []) →
      nkeys t ≤ M - 1 → geOB lo k = true → ltOB k hi = true →
      k ∈ (toEntries t).map Prod.fst →
      ∃ r, insertAux M k v t ch = some (r, ch) ∧
        skel r = skel t ∧ nkeys r = nkeys t ∧
        toEntries r = leafAdd (toEntries t) k v := by
  intro t
  induction t using bnode_induction with
  | hleaf id es =>
    intro ch lo hi hord hocc hne hnk hlo hhi hmem
    obtain ⟨hs, -⟩ := ordB_leaf_iff.mp hord
    rw [toEntries_leaf] at hmem
    refine ⟨.leaf id (leafAdd es k v), rfl, ?_, ?_, ?_⟩
    · rw [skel, skel]
      rcases leafAdd_split (k := k) (v := v) hs with
        ⟨b, A, B, hes, -, -, hadd⟩ | ⟨hnm, -, -, -, -, -, -⟩
      · rw [hadd, hes]
        simp
      · exact absurd hmem hnm
    · rcases leafAdd_split (k := k) (v := v) hs with
        ⟨b, A, B, hes, -, -, hadd⟩ | ⟨hnm, -, -, -, -, -, -⟩
      · rw [nkeys, nkeys, hadd, hes]
        simp
      · exact absurd hmem hnm
    · rw [toEntries_leaf, toEntries_leaf]
  | hnode ks cs ihc =>
    intro ch lo hi hordt hocc hne hnk hlo hhi hmem
    have hord : internalOrdB ks cs lo hi = true := hordt
    have hksne : ks ≠ [] := hne ks cs rfl
    obtain ⟨i, hfi⟩ := findIndex_isSome hksne k
    have hil := findIndex_le_length hfi
    obtain ⟨c, hci, hcord⟩ := internalOrdB_extract hord hil
    obtain ⟨hklo, hkhi⟩ := findIndex_window hfi hlo hhi
    have hcocc : occB M c = true := by
      rw [occXB] at hocc
      exact occListB_iff.mp hocc c (List.get?_mem hci)
    obtain ⟨hcoccX, hcnk, hcne, -⟩ := occB_parts hcocc
    have hAkeys : ∀ e ∈ toEntriesL (cs.take i), e.1 < k :=
      (toEntriesL_window_split hord hil hklo hkhi).1
    have hCkeys : ∀ e ∈ toEntriesL (cs.drop (i + 1)), k < e.1 :=
      (toEntriesL_window_split hord hil hklo hkhi).2
    have hdecomp := list_decomp_at hci
    have hEt : toEntries (BNode.node ks cs) =
        toEntriesL (cs.take i) ++ toEntries c ++ toEntriesL (cs.drop (i + 1)) := by
      rw [toEntries_node]
      conv_lhs => rw [hdecomp]
      rw [toEntriesL_append, toEntriesL_cons, List.append_assoc]
    have hEadd : leafAdd (toEntries (BNode.node ks cs)) k v =
        toEntriesL (cs.take i) ++ leafAdd (toEntries c) k v ++
          toEntriesL (cs.drop (i + 1)) := by
      rw [hEt, List.append_assoc, leafAdd_append_left hAkeys,
        leafAdd_append_right hCkeys, ← List.append_assoc]
    have hmemc : k ∈ (toEntries c).map Prod.fst := by
      rw [hEt] at hmem
      simp only [List.map_append, List.mem_append] at hmem
      rcases hmem with (h' | h') | h'
      · obtain ⟨e, he, hek⟩ := List.mem_map.mp h'
        exact absurd hek (ne_of_lt (hAkeys e he))
      · exact h'
      · obtain ⟨e, he, hek⟩ := List.mem_map.mp h'
        exact absurd hek (ne_of_gt (hCkeys e he))
    obtain ⟨rc, hcall, hskelc, hnkc, hentc⟩ :=
      ihc c (List.get?_mem hci) ch (lob ks lo i) (hib ks hi i) hcord hcoccX hcne
        hcnk hklo hkhi hmemc
    have hnotfull : ¬ nkeys rc = M := by omega
    refine ⟨.node ks (cs.set i rc), ?_, ?_, rfl, ?_⟩
    · rw [insertAux_node]
      simp only [hfi, insertChild_eq hci, hcall, if_neg hnotfull]
    · rw [skel, skel, skelL_set hci hskelc]
    · rw [toEntries_node]
      conv_lhs => rw [set_decomp_at hci]
      rw [toEntriesL_append, toEntriesL_cons, hentc, hEadd, List.append_assoc]

/-- C10: on every reachable tree (fresh construction followed by a sequence
of inserts), inserting a key that is already present appends the value to
that key's existing bucket and changes nothing else: the key-and-structure
skeleton of the tree (all key lists, the child structure, the leaf
identities), the leaf chain maps and the order are unchanged, and no new
root is installed. -/
theorem C10_insert_present_frame {M : Nat} (hM : 3 ≤ M)
    (ops : List (Int × β)) (k : Int) (v : β) (t : Tree β)
    (hreach : runInserts (newTree β M) ops = some t)
    (hmem : k ∈ (toEntries t.root).map Prod.fst) :
    ∃ t', insertT t k v = some t' ∧
      skel t'.root = skel t.root ∧
      t'.chain = t.chain ∧
      t'.order = t.order ∧
      toEntries t'.root = leafAdd (toEntries t.root) k v := by
  obtain ⟨t2, he2, hwf, hord2, -⟩ :=
    runInserts_wf (t := newTree β M) hM (newTree_wf β M) ops
  rw [hreach] at he2
  obtain rfl : t = t2 := Option.some.inj he2
  have hMo : t.order = M := hord2
  obtain ⟨hord, hocc, hlk, hnd, hfr⟩ := hwf
  obtain ⟨hoccX, hnk, hne⟩ := occRootB_parts hocc
  obtain ⟨r, heq, hskel, hnkeq, hent⟩ :=
    insertAux_mem (hMo.symm ▸ hM) k v t.root t.chain none none hord hoccX hne
      hnk rfl rfl hmem
  have hnotfull : ¬ nkeys r = t.order := by omega
  refine ⟨{ t with root := r, chain := t.chain }, ?_, hskel, rfl, rfl, hent⟩
  rw [insertT]
  simp only [heq, if_neg hnotfull]

theorem C10_insert_present_frame_witness :
    (3 ≤ 3 ∧
      runInserts (newTree Int 3) [(1, 5)] =
        some ⟨BNode.leaf 0 [(1, [5])], 3, ⟨[], [], 1⟩⟩ ∧
      (1 : Int) ∈ ((toEntries (⟨BNode.leaf 0 [(1, [5])], 3, ⟨[], [], 1⟩⟩ :
        Tree Int).root).map Prod.fst)) ∧
    ∃ t', insertT (⟨BNode.leaf 0 [(1, [5])], 3, ⟨[], [], 1⟩⟩ : Tree Int) 1 6 =
        some t' ∧
      skel t'.root =
        skel (⟨BNode.leaf 0 [(1, [5])], 3, ⟨[], [], 1⟩⟩ : Tree Int).root ∧
      t'.chain = (⟨BNode.leaf 0 [(1, [5])], 3, ⟨[], [], 1⟩⟩ : Tree Int).chain ∧
      t'.order = (⟨BNode.leaf 0 [(1, [5])], 3, ⟨[], [], 1⟩⟩ : Tree Int).order ∧
      toEntries t'.root =
        leafAdd (toEntries (⟨BNode.leaf 0 [(1, [5])], 3, ⟨[], [], 1⟩⟩ :
          Tree Int).root) 1 6 :=
  ⟨⟨by decide, by rfl, by decide⟩,
    C10_insert_present_frame (M := 3) (by decide) [(1, 5)] 1 6
      ⟨BNode.leaf 0 [(1, [5])], 3, ⟨[], [], 1⟩⟩ (by rfl) (by decide)⟩

/-- C3: for a tree of order 3, inserting keys 10, 20, 5, 6, 12, 30, 7, 17 in
that order (each key doubling as its value): after the third distinct key is
inserted the root is an internal node with exactly one key; after all 8
inserts `retrieve(12)` returns `[12]`, `retrieve(99)` returns the absent
signal, and the leaf chain traversed front to back via `nextLeaf` yields
exactly the keys 5, 6, 7, 10, 12, 17, 20, 30. -/
theorem C3_order3_scenario :
    (∃ t3 ks cs, runInserts (newTree Int 3) [(10, 10), (20, 20), (5, 5)] = some t3 ∧
       t3.root = BNode.node ks cs ∧ ks.length = 1) ∧
    (∃ t, runInserts (newTree Int 3)
        [(10, 10), (20, 20), (5, 5), (6, 6), (12, 12), (30, 30), (7, 7), (17, 17)] = some t ∧
       retrieveT t 12 = some (some [12]) ∧
       retrieveT t 99 = some none ∧
       chainKeysT t = some [5, 6, 7, 10, 12, 17, 20, 30]) := by
  have e1 : insertT (newTree Int 3) 10 10 = some c3S1 := rfl
  have e2 : insertT c3S1 20 20 = some c3S2 := rfl
  have e3 : insertT c3S2 5 5 = some c3S3 := rfl
  have e4 : insertT c3S3 6 6 = some c3S4 := rfl
  have e5 : insertT c3S4 12 12 = some c3S5 := rfl
  have e6 : insertT c3S5 30 30 = some c3S6 := rfl
  have e7 : insertT c3S6 7 7 = some c3S7 := rfl
  have e8 : insertT c3S7 17 17 = some c3S8 := rfl
  have r3 : runInserts (newTree Int 3) [(10, 10), (20, 20), (5, 5)] = some c3S3 := by
    rw [runInserts_cons _ e1, runInserts_cons _ e2, runInserts_cons _ e3]; rfl
  have r8 : runInserts (newTree Int 3)
      [(10, 10), (20, 20), (5, 5), (6, 6), (12, 12), (30, 30), (7, 7), (17, 17)] = some c3S8 := by
    rw [runInserts_cons _ e1, runInserts_cons _ e2, runInserts_cons _ e3,
      runInserts_cons _ e4, runInserts_cons _ e5, runInserts_cons _ e6,
      runInserts_cons _ e7, runInserts_cons _ e8]
    rfl
  exact ⟨⟨c3S3, _, _, r3, rfl, rfl⟩, ⟨c3S8, r8, rfl, rfl, rfl⟩⟩

/-- C4: the leaf chain does NOT stay consistently doubly linked.  After
inserting 3, 4, 5, 1, 2 into an order-3 tree the leaves are, in order, the
leaves with identities 0, 2, 1; leaf 2's `nextLeaf` is leaf 1, but leaf 1's
`prevLeaf` still points at leaf 0 (the split of leaf 0 never updated its old
successor's `prevLeaf`).  Likewise `_mergeOnDelete` updates `l.nextLeaf` but
leaves the right leaf's successor's `prevLeaf` pointing at the removed right
leaf. -/
theorem C4_leaf_chain_prev_stale :
    (∃ t, runInserts (newTree Int 3) [(3, 3), (4, 4), (5, 5), (1, 1), (2, 2)] = some t ∧
       leafIds t.root = [0, 2, 1] ∧
       mlook t.chain.nextMap 2 = some 1 ∧
       mlook t.chain.prevMap 1 = some 0) ∧
    (∃ r, mergeOnDelete [5] [BNode.leaf 0 [(3, [3])], BNode.leaf 1 [(5, [5])]]
        (BNode.leaf 0 [(3, [3])]) (BNode.leaf 1 [(5, [5])])
        ⟨[(0, some 1), (1, some 2), (2, none)], [(1, some 0), (2, some 1)], 3⟩ =
          some r ∧
       mlook r.2.2.nextMap 0 = some 2 ∧
       mlook r.2.2.prevMap 2 = some 1) := by
  have g1 : insertT (newTree Int 3) 3 3 = some c4S1 := rfl
  have g2 : insertT c4S1 4 4 = some c4S2 := rfl
  have g3 : insertT c4S2 5 5 = some c4S3 := rfl
  have g4 : insertT c4S3 1 1 = some c4S4 := rfl
  have g5 : insertT c4S4 2 2 = some c4S5 := rfl
  have r5 : runInserts (newTree Int 3) [(3, 3), (4, 4), (5, 5), (1, 1), (2, 2)] = some c4S5 := by
    rw [runInserts_cons _ g1, runInserts_cons _ g2, runInserts_cons _ g3,
      runInserts_cons _ g4, runInserts_cons _ g5]
    rfl
  exact ⟨⟨c4S5, r5, rfl, rfl, rfl⟩, ⟨_, rfl, rfl, rfl⟩⟩

/-- C6 counterexample: constructing a tree with order 2 does not fail; it
yields the usual empty-leaf root, and the tree is initially usable (an
insert followed by a retrieve of the same key succeeds). -/
theorem C6_order_two_constructs :
    (newTree Int 2).root = BNode.leaf 0 [] ∧
    (insertT (newTree Int 2) 5 5).map (fun t => retrieveT t 5) =
      some (some (some [5])) :=
  ⟨rfl, rfl⟩

/-- C6 amended: `BPlusTree.__init__` performs no validation of `order`; every
order (including 2 or less) yields a tree whose root is a fresh empty leaf,
on which retrieval reports absent.  The invalidity of a small order surfaces
only later: on an order-2 tree the insert sequence 1, 2, 3, 4 crashes during
descent (a split leaves an internal node with no keys) instead of failing at
construction. -/
theorem C6_no_order_validation (order : Nat) (k : Int) :
    (newTree Int order).root = BNode.leaf 0 [] ∧
    retrieveT (newTree Int order) k = some none ∧
    runInserts (newTree Int 2) [(1, 1), (2, 2), (3, 3), (4, 4)] = none := by
  refine ⟨rfl, rfl, ?_⟩
  have f1 : insertT (newTree Int 2) 1 1 = some c6S1 := rfl
  have f2 : insertT c6S1 2 2 = some c6S2 := rfl
  have f3 : insertT c6S2 3 3 = some c6S3 := rfl
  have f4 : insertT c6S3 4 4 = none := rfl
  rw [runInserts_cons _ f1, runInserts_cons _ f2, runInserts_cons _ f3]
  simp [runInserts, f4]

/-- C8: `BPlusTree.getRightmostLeaf` walks to the rightmost leaf but its body
has no `return` statement, so it returns `None` for every tree; on the
8-insert order-3 tree the rightmost leaf exists (the leaf holding 20 and 30)
yet the accessor still yields `None`. -/
theorem C8_getRightmostLeaf_missing_return :
    (∀ (β : Type) (t : Tree β), getRightmostLeaf t = none) ∧
    (∃ t, runInserts (newTree Int 3)
        [(10, 10), (20, 20), (5, 5), (6, 6), (12, 12), (30, 30), (7, 7), (17, 17)] = some t ∧
       descendLast t.root = some (BNode.leaf 3 [(20, [20]), (30, [30])]) ∧
       getRightmostLeaf t = none) := by
  have e1 : insertT (newTree Int 3) 10 10 = some c3S1 := rfl
  have e2 : insertT c3S1 20 20 = some c3S2 := rfl
  have e3 : insertT c3S2 5 5 = some c3S3 := rfl
  have e4 : insertT c3S3 6 6 = some c3S4 := rfl
  have e5 : insertT c3S4 12 12 = some c3S5 := rfl
  have e6 : insertT c3S5 30 30 = some c3S6 := rfl
  have e7 : insertT c3S6 7 7 = some c3S7 := rfl
  have e8 : insertT c3S7 17 17 = some c3S8 := rfl
  have r8 : runInserts (newTree Int 3)
      [(10, 10), (20, 20), (5, 5), (6, 6), (12, 12), (30, 30), (7, 7), (17, 17)] = some c3S8 := by
    rw [runInserts_cons _ e1, runInserts_cons _ e2, runInserts_cons _ e3,
      runInserts_cons _ e4, runInserts_cons _ e5, runInserts_cons _ e6,
      runInserts_cons _ e7, runInserts_cons _ e8]
    rfl
  exact ⟨fun _ _ => rfl, ⟨c3S8, r8, rfl, rfl⟩⟩

/-- C9: `Node.isUnderflow` and `Node.isNearlyUnderflow` reference the name
`floor`, which no import of the module defines, so every call raises a
`NameError` instead of returning a boolean. -/
theorem C9_underflow_predicates_raise (order keyCount : Nat) :
    isUnderflow order keyCount = PyEval.nameError "floor" ∧
    isNearlyUnderflow order keyCount = PyEval.nameError "floor" :=
  ⟨rfl, rfl⟩

/-- C5: the source exposes no `delete` method at all, so the claim is tested
against the spec-reconstructed §4.9 delete wired to the source's rebalancing
primitives.  On the order-4 tree built by inserting keys 1..10 (each key as
its value) the key 10 is present; `delete(99)` on the absent key fails with
`KeyNotFound` leaving the tree untouched, and `delete(10)` succeeds and does
remove the key from the leaves — but the rebalancing merge empties the
one-key internal parent on 10's search path, so the subsequent
`retrieve(10)` crashes during descent (`none`) instead of returning the
absent signal (`some none`). -/
theorem C5_delete_retrieve_crash :
    ∃ t, runInserts (newTree Int 4)
        [(1, 1), (2, 2), (3, 3), (4, 4), (5, 5), (6, 6), (7, 7), (8, 8), (9, 9), (10, 10)] =
          some t ∧
      retrieveT t 10 = some (some [10]) ∧
      deleteT t 99 = some DeleteOutcome.keyNotFound ∧
      (∃ t', deleteT t 10 = some (DeleteOutcome.deleted t') ∧
        leafKeys t'.root = [1, 2, 3, 4, 5, 6, 7, 8, 9] ∧
        retrieveT t' 10 = none) := by
  have h1 : insertT (newTree Int 4) 1 1 = some c5S1 := rfl
  have h2 : insertT c5S1 2 2 = some c5S2 := rfl
  have h3 : insertT c5S2 3 3 = some c5S3 := rfl
  have h4 : insertT c5S3 4 4 = some c5S4 := rfl
  have h5 : insertT c5S4 5 5 = some c5S5 := rfl
  have h6 : insertT c5S5 6 6 = some c5S6 := rfl
  have h7 : insertT c5S6 7 7 = some c5S7 := rfl
  have h8 : insertT c5S7 8 8 = some c5S8 := rfl
  have h9 : insertT c5S8 9 9 = some c5S9 := rfl
  have h10 : insertT c5S9 10 10 = some c5S10 := rfl
  have r10 : runInserts (newTree Int 4)
      [(1, 1), (2, 2), (3, 3), (4, 4), (5, 5), (6, 6), (7, 7), (8, 8), (9, 9), (10, 10)] =
        some c5S10 := by
    rw [runInserts_cons _ h1, runInserts_cons _ h2, runInserts_cons _ h3,
      runInserts_cons _ h4, runInserts_cons _ h5, runInserts_cons _ h6,
      runInserts_cons _ h7, runInserts_cons _ h8, runInserts_cons _ h9,
      runInserts_cons _ h10]
    rfl
  have hdel : deleteT c5S10 10 = some (DeleteOutcome.deleted c5Del) := rfl
  exact ⟨c5S10, r10, rfl, rfl, ⟨c5Del, hdel, rfl, rfl⟩⟩

theorem internalOrdB_snoc {p : Int} {d : BNode β} {hi : Option Int} :
    ∀ (ks : List Int) (cs : List (BNode β)) (lo : Option Int),
      internalOrdB ks cs lo (some p) = true →
      ordB d (some p) hi = true → gtOB lo p = true → ltOB p hi = true →
      internalOrdB (ks ++ [p]) (cs ++ [d]) lo hi = true := by
  intro ks
  induction ks with
  | nil =>
    intro cs lo h hd hp hph
    obtain ⟨c, rfl, hc⟩ := internalOrdB_nil_iff.mp h
    show internalOrdB [p] [c, d] lo hi = true
    rw [internalOrdB_cons]
    simp only [Bool.and_eq_true]
    exact ⟨⟨⟨hp, hph⟩, hc⟩, hd⟩
  | cons k ks' ih =>
    intro cs lo h hd hp hph
    cases cs with
    | nil => simp [internalOrdB] at h
    | cons c cs' =>
      rw [internalOrdB_cons] at h
      simp only [Bool.and_eq_true] at h
      obtain ⟨⟨⟨h1, h2⟩, h3⟩, h4⟩ := h
      rw [List.cons_append, List.cons_append, internalOrdB_cons]
      simp only [Bool.and_eq_true]
      refine ⟨⟨⟨h1, ?_⟩, h3⟩, ih cs' (some k) h4 hd ?_ hph⟩
      · exact ltOB_weaken h2 hph
      · exact gtOB_some.mpr (ltOB_some.mp h2)

theorem borrowLeft_node {nks sks : List Int} {ncs scs : List (BNode β)}
    {pks : List Int} {j : Nat} :
    borrowLeft (BNode.node nks ncs) (BNode.node sks scs) pks j =
      (match pks.getLast?, sks.getLast?, scs.getLast? with
      | some pk, some sk, some d =>
        some (.node (pk :: nks) (d :: ncs), .node sks.dropLast scs.dropLast,
          sk :: pks.dropLast)
      | _, _, _ => none) := rfl

/-- C7 amended: on an internal node whose PARENT HAS EXACTLY ONE KEY,
`_borrowLeft` and `_borrowRight` are the claimed three-way rotation — the
separator `p` moves from the parent into the node, the sibling's edge key
moves into the parent as the new separator, and the sibling's edge child
moves into the node — and the search-order invariant still holds afterwards.
(For parents with two or more keys the code pops/inserts at the wrong end of
the parent's key list and the invariant breaks.) -/
theorem C7_one_key_parent_internal_borrow (lo hi lo2 hi2 : Option Int)
    (p sk : Int) (S : List Int) (C : List (BNode β)) (d : BNode β)
    (nks : List Int) (ncs : List (BNode β))
    (r rk : Int) (T : List Int) (D : List (BNode β)) (e : BNode β)
    (mks : List Int) (mcs : List (BNode β)) (j1 j2 : Nat)
    (hL : ordB (BNode.node [p] [BNode.node (S ++ [sk]) (C ++ [d]),
        BNode.node nks ncs]) lo hi = true)
    (hR : ordB (BNode.node [r] [BNode.node mks mcs,
        BNode.node (rk :: T) (e :: D)]) lo2 hi2 = true) :
    (borrowLeft (BNode.node nks ncs) (BNode.node (S ++ [sk]) (C ++ [d]))
        [p] j1 =
      some (BNode.node (p :: nks) (d :: ncs), BNode.node S C, [sk]) ∧
      ordB (BNode.node [sk] [BNode.node S C, BNode.node (p :: nks) (d :: ncs)])
        lo hi = true) ∧
    (borrowRight (BNode.node mks mcs) (BNode.node (rk :: T) (e :: D))
        [r] j2 =
      some (BNode.node (mks ++ [r]) (mcs ++ [e]), BNode.node T D, [rk]) ∧
      ordB (BNode.node [rk] [BNode.node (mks ++ [r]) (mcs ++ [e]),
        BNode.node T D]) lo2 hi2 = true) := by
  have hL' : internalOrdB [p] [BNode.node (S ++ [sk]) (C ++ [d]),
      BNode.node nks ncs] lo hi = true := hL
  rw [internalOrdB_cons] at hL'
  simp only [Bool.and_eq_true] at hL'
  obtain ⟨⟨⟨hp1, hp2⟩, hsib⟩, hnode⟩ := hL'
  have hsib' : internalOrdB (S ++ [sk]) (C ++ [d]) lo (some p) = true := hsib
  have hnode' : internalOrdB nks ncs (some p) hi = true := hnode
  have hCl : C.length = S.length + 1 := by
    have := internalOrdB_length hsib'
    simpa using this
  have hget : (S ++ [sk]).get? S.length = some sk := List.get?_concat_length S sk
  have htake := internalOrdB_take hsib' hget
  rw [List.take_left, List.take_left' hCl] at htake
  have hdrop := internalOrdB_drop hsib' hget
  have hd1 : (S ++ [sk]).drop (S.length + 1) = [] := by simp
  have hd2 : (C ++ [d]).drop (S.length + 1) = [d] := List.drop_left' hCl
  rw [hd1, hd2] at hdrop
  have hd : ordB d (some sk) (some p) = true := hdrop
  have hsk := (internalOrdB_sep_facts hsib').2 sk (by simp)
  have hskp : sk < p := ltOB_some.mp hsk.2
  have hR' : internalOrdB [r] [BNode.node mks mcs,
      BNode.node (rk :: T) (e :: D)] lo2 hi2 = true := hR
  rw [internalOrdB_cons] at hR'
  simp only [Bool.and_eq_true] at hR'
  obtain ⟨⟨⟨hr1, hr2⟩, hmnode⟩, hrsib⟩ := hR'
  have hmnode' : internalOrdB mks mcs lo2 (some r) = true := hmnode
  have hrsib' : internalOrdB (rk :: T) (e :: D) (some r) hi2 = true := hrsib
  rw [internalOrdB_cons] at hrsib'
  simp only [Bool.and_eq_true] at hrsib'
  obtain ⟨⟨⟨hg1, hg2⟩, hge⟩, hgT⟩ := hrsib'
  refine ⟨⟨?_, ?_⟩, ?_, ?_⟩
  · rw [borrowLeft_node]
    simp [List.getLast?_concat, List.dropLast_concat]
  · show internalOrdB [sk] [BNode.node S C,
      BNode.node (p :: nks) (d :: ncs)] lo hi = true
    rw [internalOrdB_cons]
    simp only [Bool.and_eq_true]
    refine ⟨⟨⟨hsk.1, ltOB_trans_lt hskp hp2⟩, htake⟩, ?_⟩
    show internalOrdB (p :: nks) (d :: ncs) (some sk) hi = true
    rw [internalOrdB_cons]
    simp only [Bool.and_eq_true]
    exact ⟨⟨⟨gtOB_some.mpr hskp, hp2⟩, hd⟩, hnode'⟩
  · rfl
  · show internalOrdB [rk] [BNode.node (mks ++ [r]) (mcs ++ [e]),
      BNode.node T D] lo2 hi2 = true
    rw [internalOrdB_cons]
    simp only [Bool.and_eq_true]
    refine ⟨⟨⟨gtOB_trans_lt hr1 (gtOB_some.mp hg1), hg2⟩, ?_⟩, ?_⟩
    · exact internalOrdB_snoc mks mcs lo2 hmnode' hge hr1
        (ltOB_some.mpr (gtOB_some.mp hg1))
    · show internalOrdB T D (some rk) hi2 = true
      exact hgT

theorem C7_one_key_parent_internal_borrow_witness :
    (ordB (BNode.node [10] [BNode.node ([3] ++ [5])
        ([BNode.leaf 90 [(1, [1])], BNode.leaf 91 [(3, [3])]] ++
          [BNode.leaf 92 [(7, [7])]]),
      BNode.node [12] [BNode.leaf 93 [(10, [10])], BNode.leaf 94 [(12, [12])]]])
      none none = true) ∧
    (ordB (BNode.node [10] [BNode.node [5]
        [BNode.leaf 88 [(1, [1])], BNode.leaf 89 [(5, [(5 : Int)])]],
      BNode.node (20 :: [25]) (BNode.leaf 95 [(15, [15])] ::
        [BNode.leaf 96 [(20, [20])], BNode.leaf 97 [(25, [25])]])])
      none none = true) ∧
    (borrowLeft (BNode.node [12]
          [BNode.leaf 93 [(10, [10])], BNode.leaf 94 [(12, [(12 : Int)])]])
        (BNode.node ([3] ++ [5])
          ([BNode.leaf 90 [(1, [1])], BNode.leaf 91 [(3, [3])]] ++
            [BNode.leaf 92 [(7, [7])]])) [10] 1 =
      some (BNode.node (10 :: [12])
          (BNode.leaf 92 [(7, [7])] ::
            [BNode.leaf 93 [(10, [10])], BNode.leaf 94 [(12, [12])]]),
        BNode.node [3] [BNode.leaf 90 [(1, [1])], BNode.leaf 91 [(3, [3])]],
        [5]) ∧
      ordB (BNode.node [5]
        [BNode.node [3] [BNode.leaf 90 [(1, [1])], BNode.leaf 91 [(3, [3])]],
         BNode.node (10 :: [12]) (BNode.leaf 92 [(7, [7])] ::
           [BNode.leaf 93 [(10, [10])], BNode.leaf 94 [(12, [12])]])])
        none none = true) ∧
    (borrowRight (BNode.node [5]
          [BNode.leaf 88 [(1, [1])], BNode.leaf 89 [(5, [(5 : Int)])]])
        (BNode.node (20 :: [25]) (BNode.leaf 95 [(15, [15])] ::
          [BNode.leaf 96 [(20, [20])], BNode.leaf 97 [(25, [25])]]))
        [10] 0 =
      some (BNode.node ([5] ++ [10])
          ([BNode.leaf 88 [(1, [1])], BNode.leaf 89 [(5, [5])]] ++
            [BNode.leaf 95 [(15, [15])]]),
        BNode.node [25] [BNode.leaf 96 [(20, [20])], BNode.leaf 97 [(25, [25])]],
        [20]) ∧
      ordB (BNode.node [20]
        [BNode.node ([5] ++ [10])
          ([BNode.leaf 88 [(1, [1])], BNode.leaf 89 [(5, [5])]] ++
            [BNode.leaf 95 [(15, [15])]]),
         BNode.node [25] [BNode.leaf 96 [(20, [20])], BNode.leaf 97 [(25, [25])]]])
        none none = true) := by
  refine ⟨rfl, rfl, ?_⟩
  exact C7_one_key_parent_internal_borrow none none none none 10 5 [3]
    [BNode.leaf 90 [(1, [1])], BNode.leaf 91 [(3, [3])]]
    (BNode.leaf 92 [(7, [7])]) [12]
    [BNode.leaf 93 [(10, [10])], BNode.leaf 94 [(12, [12])]]
    10 20 [25]
    [BNode.leaf 96 [(20, [20])], BNode.leaf 97 [(25, [25])]]
    (BNode.leaf 95 [(15, [15])]) [5]
    [BNode.leaf 88 [(1, [1])], BNode.leaf 89 [(5, [5])]]
    1 0 rfl rfl

/-- C7 counterexample: `_borrowLeft` on an internal node whose parent has two
keys.  In the search-order-correct configuration below the separator between
the sibling and the node is 10, but the code moves the parent's LAST key 20
into the node and re-inserts the sibling's key 5 at the parent's FRONT; the
resulting configuration violates the search-order invariant (the node's key
list becomes `[20, 12]`). -/
theorem C7_two_key_parent_borrow_breaks_order :
    ordB (BNode.node [10, 20] [c7Sib, c7Node, c7Right]) none none = true ∧
    (∃ node' sib',
      borrowLeft c7Node c7Sib [10, 20] 1 = some (node', sib', [5, 10]) ∧
      nodeKeys node' = [20, 12] ∧
      ordB (BNode.node [5, 10] [sib', node', c7Right]) none none = false) :=
  ⟨rfl, ⟨_, _, rfl, rfl, rfl⟩⟩

end BPT
